import Mathlib

/-!
Verification development for the lumen compiler middle/back-end.

The available source snapshot of the repository is a single header
(`src/compiler/codegen_llvm/lib/lumen/EIR/IR/EIREnums.h`); every other
component named by the specification (Term Model, Pattern-Match Compiler,
Verifier, Closure & Process Lowering, Backend Lowering Emitter) is absent
from the snapshot, so those components are modelled from the spec, each
definition saying so in its doc comment.
-/

namespace Lumen

/-! ## Term Model: tagged-word encoding (spec section 4.1) -/

/-- Modelled from the spec: the Term Model's tagged word uses a small set of
low bits as the primitive tag; the source implementing the term encoding is
missing from the snapshot.  Three low bits carry the tag. -/
def tagWidth : Nat := 3

/-- Modelled from the spec: primitive tag value for a pointer to a boxed
heap object. -/
def boxTag : Nat := 0

/-- Modelled from the spec: primitive tag value for a small integer held
immediately in the tagged word. -/
def intTag : Nat := 1

/-- Modelled from the spec: header-word tag discriminating a boxed tuple,
read with one dereference. -/
def tupleHeaderTag : Nat := 2

/-- Modelled from the spec: smallest small integer representable immediately
in the tagged word (61 payload bits, two's complement). -/
def smallIntMin : Int := -(2 ^ 60)

/-- Modelled from the spec: largest small integer representable immediately
in the tagged word. -/
def smallIntMax : Int := 2 ^ 60 - 1

/-- Modelled from the spec: encode a small integer entirely in the tagged
word (two's complement payload shifted past the tag bits); the encoder
itself is missing from the snapshot. -/
def encodeSmallInt (n : Int) : Nat :=
  (n % (2 ^ 61 : Int)).toNat * 8 + intTag

/-- Modelled from the spec: decode a small integer from a tagged word. -/
def decodeSmallInt (w : Nat) : Int :=
  let p : Nat := w / 8 % 2 ^ 61
  if p < 2 ^ 60 then (p : Int) else (p : Int) - 2 ^ 61

/-- Modelled from the spec: the heap as a list of boxed objects, each a list
of words (header word first). -/
abbrev Heap := List (List Nat)

/-- Modelled from the spec: encoding a small integer performed against a
heap, making it visible that no heap storage is allocated. -/
def encodeSmallIntOnHeap (h : Heap) (n : Int) : Heap × Nat :=
  (h, encodeSmallInt n)

/-- Modelled from the spec: primitive tag of a tagged word. -/
def wordTag (w : Nat) : Nat := w % 8

/-- Modelled from the spec: `is_boxed` primitive type test. -/
def isBoxed (w : Nat) : Bool := wordTag w == boxTag

/-- Modelled from the spec: header word of a boxed tuple of arity `k`. -/
def tupleHeader (k : Nat) : Nat := k * 8 + tupleHeaderTag

/-- Modelled from the spec: construct a boxed tuple from element words,
allocating one heap object and returning the tagged pointer to it. -/
def allocTuple (h : Heap) (elems : List Nat) : Heap × Nat :=
  (h ++ [tupleHeader elems.length :: elems], h.length * 8 + boxTag)

/-- Modelled from the spec: dereference a boxed pointer to its heap object
(`unbox`), failing on a non-pointer tag or a dangling address. -/
def derefBox (h : Heap) (w : Nat) : Option (List Nat) :=
  if wordTag w == boxTag then h.get? (w / 8) else none

/-- Modelled from the spec: destructure element `i` of a boxed tuple (the
tuple-element extraction op), checking the header word's subtype tag and
arity after one dereference. -/
def tupleElem (h : Heap) (w : Nat) (i : Nat) : Option Nat :=
  match derefBox h w with
  | some (hdr :: elems) =>
      if wordTag hdr == tupleHeaderTag && i < hdr / 8 then elems.get? i else none
  | _ => none

/-! ## Structural terms and patterns (spec sections 3 and 4.3) -/

/-- Modelled from the spec: a dynamically-typed runtime value, at the
structural level the Pattern-Match Compiler discriminates on (integers,
atoms, nil, cons cells, tuples). -/
inductive Term where
  | int   : Int → Term
  | atom  : String → Term
  | nil   : Term
  | cons  : Term → Term → Term
  | tuple : List Term → Term

/-- Modelled from the spec: source-level patterns of section 4.3 (wildcard,
bind-to-variable, literal equality, nil, cons decomposition, tuple of
subpatterns). -/
inductive Pat where
  | wild    : Pat
  | bind    : String → Pat
  | lit     : Int → Pat
  | litAtom : String → Pat
  | nilp    : Pat
  | consp   : Pat → Pat → Pat
  | tup     : List Pat → Pat

/-- Modelled from the spec: the constructor tag a Switch branch
discriminates on. -/
inductive Tag where
  | int   : Int → Tag
  | atom  : String → Tag
  | nil   : Tag
  | cons  : Tag
  | tuple : Nat → Tag
deriving DecidableEq

/-- Constructor tag of a term. -/
def tagOf : Term → Tag
  | .int n => .int n
  | .atom a => .atom a
  | .nil => .nil
  | .cons _ _ => .cons
  | .tuple ts => .tuple ts.length

/-- Immediate subterms of a term. -/
def children : Term → List Term
  | .int _ => []
  | .atom _ => []
  | .nil => []
  | .cons a b => [a, b]
  | .tuple ts => ts

/-- Number of immediate subterms a constructor with this tag carries. -/
def tagArity : Tag → Nat
  | .int _ => 0
  | .atom _ => 0
  | .nil => 0
  | .cons => 2
  | .tuple k => k

/-- Constructor tag demanded by a pattern; `none` for the irrefutable
patterns (wildcard and bind). -/
def patTag : Pat → Option Tag
  | .wild => none
  | .bind _ => none
  | .lit n => some (.int n)
  | .litAtom a => some (.atom a)
  | .nilp => some .nil
  | .consp _ _ => some .cons
  | .tup ps => some (.tuple ps.length)

/-- Immediate subpatterns of a pattern. -/
def subPats : Pat → List Pat
  | .wild => []
  | .bind _ => []
  | .lit _ => []
  | .litAtom _ => []
  | .nilp => []
  | .consp p q => [p, q]
  | .tup ps => ps

mutual

/-- Modelled from the spec: structural pattern match of one pattern against
one term (the reference semantics of section 4.3's pattern variants). -/
def patMatch : Pat → Term → Bool
  | .wild, _ => true
  | .bind _, _ => true
  | .lit n, .int m => n == m
  | .lit _, _ => false
  | .litAtom a, .atom b => a == b
  | .litAtom _, _ => false
  | .nilp, .nil => true
  | .nilp, _ => false
  | .consp p q, .cons a b => patMatch p a && patMatch q b
  | .consp _ _, _ => false
  | .tup ps, .tuple ts => patMatchList ps ts
  | .tup _, _ => false

/-- Pointwise structural match of a pattern row against a term row; false
when the arities disagree. -/
def patMatchList : List Pat → List Term → Bool
  | [], [] => true
  | p :: ps, t :: ts => patMatch p t && patMatchList ps ts
  | _, _ => false

end

/-- Modelled from the spec: a source clause, `(patterns, optional guard,
body)`; the body is identified by the clause's position, and the guard is
modelled as a predicate on the scrutinee tuple (the bound variables a
guard reads are a function of the scrutinees). -/
structure Clause where
  pats : List Pat
  grd  : Option (List Term → Bool)

/-- Guard of a clause as a total predicate: a missing guard holds. -/
def clauseGuard (c : Clause) (ts : List Term) : Bool :=
  match c.grd with
  | none => true
  | some g => g ts

/-- Modelled from the spec: the naive reference interpreter, testing
clauses top-to-bottom and patterns left-to-right, selecting the first
clause whose patterns all match and whose guard holds; `i` is the index of
the first clause of the list. -/
def naiveSelFrom (i : Nat) : List Clause → List Term → Option Nat
  | [], _ => none
  | c :: cs, ts =>
      if patMatchList c.pats ts && clauseGuard c ts then some i
      else naiveSelFrom (i + 1) cs ts

/-- First-matching-clause-wins reference semantics over a whole clause
list: the selected clause index, or `none` for "no matching clause". -/
def naiveSelect (cs : List Clause) (ts : List Term) : Option Nat :=
  naiveSelFrom 0 cs ts

/-! ## Occurrences: paths from the scrutinee tuple into subterms -/

/-- An occurrence: a path of child indices leading from the (virtual)
scrutinee tuple to a subterm. -/
abbrev Occ := List Nat

/-- Navigate a path of child indices inside a term. -/
def getSub (t : Term) : List Nat → Option Term
  | [] => some t
  | k :: ks =>
      match (children t).get? k with
      | some c => getSub c ks
      | none => none

/-- Subterm of the scrutinee tuple at an occurrence. -/
def getOcc (ts : List Term) (o : Occ) : Option Term :=
  getSub (.tuple ts) o

/-- Does the pattern match the subterm at the occurrence?  An occurrence
that navigates outside the scrutinee never matches. -/
def occMatch (ts : List Term) (o : Occ) (p : Pat) : Bool :=
  match getOcc ts o with
  | some t => patMatch p t
  | none => false

/-- Pointwise match of a row of patterns against the subterms at a row of
occurrences. -/
def colsMatch (ts : List Term) : List Occ → List Pat → Bool
  | [], [] => true
  | o :: os, p :: ps => occMatch ts o p && colsMatch ts os ps
  | _, _ => false

/-! ## Clause matrix (spec section 4.3's column-major compilation state) -/

/-- A row of the clause matrix: the row's remaining patterns (aligned with
the matrix's occurrence columns), its guard, and the original clause
index its leaf reports. -/
structure MRow where
  pats : List Pat
  grd  : List Term → Bool
  idx  : Nat

/-- Pattern of a row at column `j` (wildcard when out of range). -/
def colPat (r : MRow) (j : Nat) : Pat := r.pats.getD j .wild

/-- Is every pattern of the row irrefutable (wildcard or bind)? -/
def rowIrrefutable (ps : List Pat) : Bool := ps.all fun p => (patTag p).isNone

/-- Modelled from the spec: the column-selection heuristic, "prefer the
leftmost column containing a non-wildcard pattern" across the remaining
clauses. -/
def firstRefCol (rows : List MRow) : Nat :=
  let width := (rows.head?.map fun r => r.pats.length).getD 0
  ((List.range width).find? fun j =>
    rows.any fun r => (patTag (colPat r j)).isSome).getD 0

/-- Constructor tags appearing in column `j`, in row order, one branch per
distinct tag. -/
def columnTags (rows : List MRow) (j : Nat) : List Tag :=
  (rows.filterMap fun r => patTag (colPat r j)).dedup

/-- A row of `n` wildcards. -/
def wilds (n : Nat) : List Pat := List.replicate n .wild

/-- Specialize one row for constructor tag `tg` at column `j`: a row whose
column-`j` pattern carries `tg` continues with its subpatterns substituted
in place; an irrefutable pattern continues as wildcards for the
constructor's fields; a different constructor is dropped from the
specialized matrix. -/
def specRow (j : Nat) (tg : Tag) (r : MRow) : Option MRow :=
  match patTag (colPat r j) with
  | none =>
      some { r with pats := r.pats.take j ++ wilds (tagArity tg) ++ r.pats.drop (j + 1) }
  | some tg' =>
      if tg' = tg then
        some { r with pats := r.pats.take j ++ subPats (colPat r j) ++ r.pats.drop (j + 1) }
      else none

/-- Rows of the matrix specialized for tag `tg` at column `j`. -/
def specRows (j : Nat) (tg : Tag) (rows : List MRow) : List MRow :=
  rows.filterMap (specRow j tg)

/-- Occurrences of the `n` children of the subterm at occurrence `o`,
starting at child `s`. -/
def childOccsFrom (o : Occ) (s n : Nat) : List Occ :=
  (List.range' s n).map fun k => o ++ [k]

/-- Occurrences of the first `n` children of the subterm at occurrence
`o`. -/
def childOccs (o : Occ) (n : Nat) : List Occ := childOccsFrom o 0 n

/-- Occurrence columns after specializing column `j` for tag `tg`: the
discriminated column is replaced by its children's occurrences. -/
def specOccs (j : Nat) (tg : Tag) (occs : List Occ) : List Occ :=
  occs.take j ++ childOccs (occs.getD j []) (tagArity tg) ++ occs.drop (j + 1)

/-- Default-branch row at column `j`: rows whose column-`j` pattern is a
wildcard or bind survive with that column removed; constructor rows are
dropped. -/
def defRow (j : Nat) (r : MRow) : Option MRow :=
  match patTag (colPat r j) with
  | none => some { r with pats := r.pats.take j ++ r.pats.drop (j + 1) }
  | some _ => none

/-- Rows of the default branch of a Switch on column `j`. -/
def defRows (j : Nat) (rows : List MRow) : List MRow :=
  rows.filterMap (defRow j)

/-- Occurrence columns of the default branch: column `j` removed. -/
def defOccs (j : Nat) (occs : List Occ) : List Occ :=
  occs.take j ++ occs.drop (j + 1)

mutual

/-- Weight of a pattern: the number of constructor symbols it contains
(irrefutable patterns weigh nothing).  The compiler's recursion measure. -/
def patWeight : Pat → Nat
  | .wild => 0
  | .bind _ => 0
  | .lit _ => 1
  | .litAtom _ => 1
  | .nilp => 1
  | .consp p q => 1 + patWeight p + patWeight q
  | .tup ps => 1 + patsWeight ps

/-- Total weight of a row of patterns. -/
def patsWeight : List Pat → Nat
  | [] => 0
  | p :: ps => patWeight p + patsWeight ps

end

/-- Total constructor weight of a clause matrix. -/
def matrixWeight : List MRow → Nat
  | [] => 0
  | r :: rs => patsWeight r.pats + matrixWeight rs

/-! ## Decision trees (spec section 3, Decision Tree Node) -/

/-- Modelled from the spec: the Pattern-Match Compiler's Decision Tree
Node, a tagged variant over Leaf (a clause body, identified by clause
index), Switch (discriminant occurrence, ordered branches per constructor
tag, default subtree) and Guard (condition, true-subtree, false-subtree);
`fail` is the expanded tree's final default branch, which raises the
"no matching clause" runtime error. -/
inductive DTree where
  | fail  : DTree
  | leaf  : Nat → DTree
  | guard : (List Term → Bool) → DTree → DTree → DTree
  | switch : Occ → List (Tag × DTree) → DTree → DTree

mutual

/-- Modelled from the spec: run the expanded Decision Tree against a
concrete scrutinee tuple; `none` is the "no matching clause" runtime
error raised by the final default branch. -/
def evalTree : DTree → List Term → Option Nat
  | .fail, _ => none
  | .leaf i, _ => some i
  | .guard g tb fb, ts => if g ts then evalTree tb ts else evalTree fb ts
  | .switch o brs dflt, ts =>
      match getOcc ts o with
      | some t =>
          match evalCases (tagOf t) brs ts with
          | some r => r
          | none => evalTree dflt ts
      | none => none

/-- Evaluate the Switch branch whose tag equals the discriminant's tag;
`none` when no branch carries that tag, sending control to the Switch's
default subtree. -/
def evalCases : Tag → List (Tag × DTree) → List Term → Option (Option Nat)
  | _, [], _ => none
  | tg, (tg', sub) :: brs, ts =>
      if tg = tg' then some (evalTree sub ts) else evalCases tg brs ts

end

/-- Reference selection over the clause matrix: first row whose patterns
match the subterms at the occurrence columns and whose guard holds. -/
def matrixSel (ts : List Term) (occs : List Occ) : List MRow → Option Nat
  | [] => none
  | r :: rest =>
      if colsMatch ts occs r.pats && r.grd ts then some r.idx
      else matrixSel ts occs rest

/-- Modelled from the spec: the column-major clause-matrix compilation of
section 4.3, structured on a fuel argument that the top-level entry point
instantiates with the matrix's recursion measure.  A matrix whose first
row is all-irrefutable compiles to that row's Guard over its leaf, with
guard failure falling through to the compilation of the remaining rows in
original order; otherwise the heuristic column is discriminated by a
Switch with one branch per distinct constructor tag and a default branch
carrying the irrefutable rows. -/
def compileF : Nat → List Occ → List MRow → DTree
  | 0, _, _ => .fail
  | _ + 1, _, [] => .fail
  | fuel + 1, occs, r :: rest =>
      if rowIrrefutable r.pats then
        .guard r.grd (.leaf r.idx) (compileF fuel occs rest)
      else
        let j := firstRefCol (r :: rest)
        let tags := columnTags (r :: rest) j
        .switch (occs.getD j [])
          (tags.map fun tg =>
            (tg, compileF fuel (specOccs j tg occs) (specRows j tg (r :: rest))))
          (compileF fuel (defOccs j occs) (defRows j (r :: rest)))

/-- Rows of the initial clause matrix, clause `i` first. -/
def clauseRowsFrom (i : Nat) : List Clause → List MRow
  | [] => []
  | c :: cs => ⟨c.pats, clauseGuard c, i⟩ :: clauseRowsFrom (i + 1) cs

/-- Initial clause matrix of a clause list. -/
def clauseRows (cs : List Clause) : List MRow := clauseRowsFrom 0 cs

/-- Initial occurrence columns: the `n` scrutinees themselves. -/
def rootOccs (n : Nat) : List Occ := childOccs [] n

/-- Fuel sufficient for the whole compilation: the matrix measure plus
one. -/
def matrixFuel (rows : List MRow) : Nat := matrixWeight rows + rows.length + 1

/-- Modelled from the spec: the Pattern-Match Compiler's entry point,
compiling an ordered clause list over `n` scrutinees into a Decision
Tree. -/
def compileClauses (cs : List Clause) (n : Nat) : DTree :=
  compileF (matrixFuel (clauseRows cs)) (rootOccs n) (clauseRows cs)

/-! ## Diagnostics and the static reachability check (spec sections 4.3, 6, 7) -/

/-- Modelled from the spec: diagnostic severity, `warning` or `error`. -/
inductive Severity where
  | warning : Severity
  | err     : Severity
deriving DecidableEq

/-- Modelled from the spec: a structured diagnostic
(severity, function, location, message). -/
structure Diag where
  severity : Severity
  fname    : String
  location : Nat
  message  : String

mutual

/-- Modelled from the spec: static pattern subsumption used by the
reachability check; `subsumes p q` holds when every term matching `q`
also matches `p`. -/
def subsumes : Pat → Pat → Bool
  | .wild, _ => true
  | .bind _, _ => true
  | .lit n, .lit m => n == m
  | .litAtom a, .litAtom b => a == b
  | .nilp, .nilp => true
  | .consp p q, .consp a b => subsumes p a && subsumes q b
  | .tup ps, .tup qs => subsumesList ps qs
  | _, _ => false

/-- Pointwise subsumption of pattern rows. -/
def subsumesList : List Pat → List Pat → Bool
  | [], [] => true
  | p :: ps, q :: qs => subsumes p q && subsumesList ps qs
  | _, _ => false

end

/-- Modelled from the spec: a clause is provably unreachable given prior
clauses when some guard-free earlier clause subsumes each of its
patterns. -/
def clauseUnreachable (prior : List Clause) (c : Clause) : Bool :=
  prior.any fun p => p.grd.isNone && subsumesList p.pats c.pats

/-- Modelled from the spec: the Verifier's static reachability check over
a clause list, reporting one non-fatal diagnostic per provably
unreachable clause; `i` numbers the first clause of `rest` and `prior`
holds the clauses already seen. -/
def reachWarnsFrom (fname : String) (i : Nat) (prior : List Clause) :
    List Clause → List Diag
  | [] => []
  | c :: cs =>
      (if clauseUnreachable prior c then
        [⟨Severity.warning, fname, i, "unreachable clause"⟩]
      else []) ++ reachWarnsFrom fname (i + 1) (prior ++ [c]) cs

/-- Reachability diagnostics for a whole clause list. -/
def reachWarns (fname : String) (cs : List Clause) : List Diag :=
  reachWarnsFrom fname 0 [] cs

/-- Result of compiling a clause list: the expanded tree plus the
diagnostics gathered along the way. -/
structure PMResult where
  tree  : DTree
  diags : List Diag

/-- Modelled from the spec: the Pattern-Match Compiler pipeline with
diagnostics; warnings are collected alongside and never block the
compilation itself. -/
def compileWithDiags (fname : String) (cs : List Clause) (n : Nat) : PMResult :=
  ⟨compileClauses cs n, reachWarns fname cs⟩

/-! ## IR data model and Verifier (spec sections 3 and 4.5) -/

/-- An SSA value name. -/
abbrev ValId := Nat

/-- A basic-block name. -/
abbrev BlockId := Nat

/-- Modelled from the spec: an IR Operation, an opcode-bearing node with
ordered operand Values and result Values (attributes and opcodes carry no
weight in the verified invariants, so only the value lists are kept). -/
structure Operation where
  results  : List ValId
  operands : List ValId

/-- Modelled from the spec: a block's unique terminator (branch,
conditional branch, return, or unreachable). -/
inductive Terminator where
  | br      : BlockId → Terminator
  | condBr  : ValId → BlockId → BlockId → Terminator
  | ret     : ValId → Terminator
  | unreach : Terminator

/-- Modelled from the spec: a Basic Block, an ordered sequence of
Operations ending in exactly one terminator. -/
structure BasicBlock where
  bid  : BlockId
  ops  : List Operation
  term : Terminator

/-- Modelled from the spec: a Function with parameters, an entry block and
the full block graph. -/
structure Fn where
  name   : String
  params : List ValId
  entry  : BlockId
  blocks : List BasicBlock

/-- Successor block ids named by a terminator. -/
def termTargets : Terminator → List BlockId
  | .br b => [b]
  | .condBr _ b1 b2 => [b1, b2]
  | .ret _ => []
  | .unreach => []

/-- Value operands read by a terminator. -/
def termOperands : Terminator → List ValId
  | .br _ => []
  | .condBr c _ _ => [c]
  | .ret v => [v]
  | .unreach => []

/-- The block of a function carrying a given id (the first, when ids are
duplicated; the Verifier separately rejects duplicate ids). -/
def findBlock (f : Fn) (b : BlockId) : Option BasicBlock :=
  f.blocks.find? fun blk => blk.bid == b

/-- Successors of a block in the function's control-flow graph. -/
def succOf (f : Fn) (b : BlockId) : List BlockId :=
  match findBlock f b with
  | some blk => termTargets blk.term
  | none => []

/-- Predecessor block ids of a block. -/
def predsOf (f : Fn) (b : BlockId) : List BlockId :=
  (f.blocks.filter fun blk => (termTargets blk.term).contains b).map fun blk => blk.bid

/-- All block ids of the function. -/
def blockIds (f : Fn) : List BlockId := f.blocks.map fun blk => blk.bid

/-- One step of the reachability fixpoint: add every successor of an
already reached block. -/
def reachStep (f : Fn) (r : List BlockId) : List BlockId :=
  (r ++ r.flatMap (succOf f)).dedup

/-- Block ids reached from the entry in at most `n` steps. -/
def reachSetAux (f : Fn) : Nat → List BlockId
  | 0 => [f.entry]
  | n + 1 => reachStep f (reachSetAux f n)

/-- Block ids the Verifier's reachability analysis reaches from the
entry. -/
def reachSet (f : Fn) : List BlockId := reachSetAux f f.blocks.length

/-- Every value the function defines: parameters first, then each
operation's results in program order. -/
def allDefs (f : Fn) : List ValId :=
  f.params ++ f.blocks.flatMap fun blk => blk.ops.flatMap fun op => op.results

/-- The `(index, value)` uses inside a list of operations, numbering the
first operation `i`. -/
def opUsesFrom (i : Nat) : List Operation → List (Nat × ValId)
  | [] => []
  | op :: ops => (op.operands.map fun v => (i, v)) ++ opUsesFrom (i + 1) ops

/-- The `(index, value)` uses of a block; the terminator uses sit after
every operation. -/
def blockUses (blk : BasicBlock) : List (Nat × ValId) :=
  opUsesFrom 0 blk.ops ++ (termOperands blk.term).map fun v => (blk.ops.length, v)

/-- Every `(block, index, value)` use of the function. -/
def fnUses (f : Fn) : List (BlockId × Nat × ValId) :=
  f.blocks.flatMap fun blk => (blockUses blk).map fun u => (blk.bid, u.1, u.2)

/-- Where a value is defined: as a parameter, or by the operation at a
block-and-index position. -/
inductive DefSite where
  | param : DefSite
  | inOp  : BlockId → Nat → DefSite

/-- Index of the first operation at or after index `i` defining `v`. -/
def opDefIdxFrom (i : Nat) (v : ValId) : List Operation → Option Nat
  | [] => none
  | op :: ops => if op.results.contains v then some i else opDefIdxFrom (i + 1) v ops

/-- Index of the first operation of a block defining `v`. -/
def opDefIdx (ops : List Operation) (v : ValId) : Option Nat := opDefIdxFrom 0 v ops

/-- The defining site the Verifier resolves a value to. -/
def defSiteOf (f : Fn) (v : ValId) : Option DefSite :=
  if f.params.contains v then some .param
  else
    match f.blocks.find? fun blk => (opDefIdx blk.ops v).isSome with
    | some blk => (opDefIdx blk.ops v).map fun i => DefSite.inOp blk.bid i
    | none => none

/-- Initial dominator-set assignment of the Verifier's dataflow: the entry
dominates itself, everything tentatively dominates every other block. -/
def domInit (f : Fn) (b : BlockId) : List BlockId :=
  if b = f.entry then [f.entry] else blockIds f

/-- Intersection of id lists. -/
def interIds (xs acc : List BlockId) : List BlockId := acc.filter fun x => xs.contains x

/-- One step of the dominator dataflow: a non-entry block is dominated by
itself and by every common dominator of its predecessors. -/
def domStep (f : Fn) (d : BlockId → List BlockId) (b : BlockId) : List BlockId :=
  if b = f.entry then [f.entry]
  else b :: ((predsOf f b).map d).foldr interIds (blockIds f)

/-- `n` steps of the dominator dataflow. -/
def domIter (f : Fn) : Nat → BlockId → List BlockId
  | 0 => domInit f
  | n + 1 => domStep f (domIter f n)

/-- Iteration count sufficient for the dominator dataflow to reach its
fixpoint (the lattice's height). -/
def domFuel (f : Fn) : Nat := (f.blocks.length + 1) * (f.blocks.length + 1)

/-- The Verifier's computed dominator sets. -/
def domFun (f : Fn) : BlockId → List BlockId := domIter f (domFuel f)

/-- The post-fixpoint condition the Verifier checks on the computed
dominator sets; it is exactly what the soundness argument consumes. -/
def domConsistent (f : Fn) (d : BlockId → List BlockId) : Bool :=
  (d f.entry == [f.entry]) &&
  f.blocks.all fun blk =>
    (blk.bid == f.entry) ||
    (d blk.bid).all fun x =>
      (x == blk.bid) || (predsOf f blk.bid).all fun p => (d p).contains x

/-- Does the computed dominance information place the use after its
definition?  A parameter dominates everything; a same-block definition
must come at an earlier index; a cross-block definition must dominate the
using block. -/
def useDominated (f : Fn) (d : BlockId → List BlockId) (ub : BlockId) (ui : Nat)
    (v : ValId) : Bool :=
  match defSiteOf f v with
  | some .param => true
  | some (.inOp db di) => if db = ub then di < ui else (d ub).contains db
  | none => false

/-- Modelled from the spec: the Verifier's per-Function checks, each a
hard failure: distinct block names, an existing entry block, every block
reachable from the entry, single static assignment (no value defined
twice), every operand defined somewhere, consistent dominator sets, and
every use dominated by its definition. -/
def verifyFn (f : Fn) : Bool :=
  decide (blockIds f).Nodup &&
  (findBlock f f.entry).isSome &&
  (f.blocks.all fun blk => (reachSet f).contains blk.bid) &&
  decide (allDefs f).Nodup &&
  ((fnUses f).all fun u => (allDefs f).contains u.2.2) &&
  domConsistent f (domFun f) &&
  ((fnUses f).all fun u => useDominated f (domFun f) u.1 u.2.1 u.2.2)

/-- A path of block ids walked from the entry block along terminator
targets, ending at the named block. -/
inductive EPath (f : Fn) : BlockId → List BlockId → Prop where
  | start : EPath f f.entry [f.entry]
  | step : ∀ {b p b'}, EPath f b p → b' ∈ succOf f b → EPath f b' (p ++ [b'])

/-- A block is reachable when some walk from the entry ends at it. -/
def ReachableB (f : Fn) (b : BlockId) : Prop := ∃ p, EPath f b p

/-- Block `d` dominates block `b`: every walk from the entry to `b` passes
through `d`. -/
def Dominates (f : Fn) (d b : BlockId) : Prop := ∀ p, EPath f b p → d ∈ p

/-! ## Module lowering and the Backend Lowering Emitter (spec sections 4.5, 4.6) -/

/-- Modelled from the spec: a Module, a named collection of Functions plus
the global constant tables. -/
structure Module where
  mname : String
  fns   : List Fn
  atoms : List String

/-- Modelled from the spec: a backend instruction at the backend
instruction boundary, carrying the register/slot bindings chosen for its
result and operand values. -/
structure BInstr where
  mnem     : String
  dstSlots : List Nat
  srcSlots : List Nat
deriving DecidableEq

/-- Modelled from the spec: the operand-to-register/slot binding, a pure
function of the IR Value's SSA identity. -/
def slotOf (v : ValId) : Nat := v

/-- Emit one operation's backend instruction; bindings come from `slotOf`
alone. -/
def emitOp (op : Operation) : BInstr :=
  ⟨"op", op.results.map slotOf, op.operands.map slotOf⟩

/-- Emit a terminator's backend instruction. -/
def emitTerm (t : Terminator) : BInstr :=
  ⟨"term", [], (termOperands t).map slotOf⟩

/-- Modelled from the spec: the Emitter's walk over one block, threading a
scratch counter (the ambient emission state two different runs may
disagree on); the emitted instructions depend only on the block. -/
def emitBlockFrom (s : Nat) (blk : BasicBlock) : Nat × List BInstr :=
  (s + blk.ops.length + 1, blk.ops.map emitOp ++ [emitTerm blk.term])

/-- The Emitter's walk over a function's blocks, threading the scratch
counter through every block. -/
def emitBlocksFrom (s : Nat) : List BasicBlock → Nat × List BInstr
  | [] => (s, [])
  | blk :: blks =>
      let r := emitBlockFrom s blk
      let rest := emitBlocksFrom r.1 blks
      (rest.1, r.2 ++ rest.2)

/-- Emit one function from a given scratch state. -/
def emitFnFrom (s : Nat) (f : Fn) : Nat × List BInstr := emitBlocksFrom s f.blocks

/-- The Emitter's walk over a whole module from a given scratch state. -/
def emitFnsFrom (s : Nat) : List Fn → Nat × List BInstr
  | [] => (s, [])
  | f :: fs =>
      let r := emitFnFrom s f
      let rest := emitFnsFrom r.1 fs
      (rest.1, r.2 ++ rest.2)

/-- Modelled from the spec: backend emission of a verified Module. -/
def emitModule (m : Module) : List BInstr := (emitFnsFrom 0 m.fns).2

/-- Modelled from the spec: Module-level verification, every Function's
checks passing. -/
def verifyModule (m : Module) : Bool := m.fns.all verifyFn

/-- One step of Module lowering: verify the next function and append its
emission, unless the Module already aborted. -/
def lowerStep (acc : Option (List BInstr)) (f : Fn) : Option (List BInstr) :=
  match acc with
  | none => none
  | some is => if verifyFn f then some (is ++ (emitFnFrom 0 f).2) else none

/-- Modelled from the spec: lowering of a Module walks its functions in
order, verifying and emitting each; any verification failure aborts the
whole Module's lowering, discarding everything already emitted. -/
def lowerModule (m : Module) : Option (List BInstr) :=
  m.fns.foldl lowerStep (some [])

/-! ## Process operations (spec section 4.4) -/

/-- Modelled from the spec: process-operation kinds of the IR Op Set. -/
inductive ProcOp where
  | spawnOp : ProcOp
  | sendOp  : ProcOp
  | recvOp  : ProcOp
deriving DecidableEq

/-- Modelled from the spec: the Op Set marks receive as the one operation
that may suspend; spawn and send never block. -/
def maySuspend : ProcOp → Bool
  | .recvOp => true
  | _ => false

/-- Modelled from the spec: a runtime process with its mailbox. -/
structure Proc where
  pid     : Nat
  alive   : Bool
  mailbox : List Term

/-- Modelled from the spec: the runtime system the generated calls target,
as a list of processes. -/
structure RtSys where
  procs : List Proc

/-- Outcome of a lowered runtime call: a new system state, an exception,
or a blocked caller. -/
inductive RtResult (α : Type) where
  | ok      : α → RtResult α
  | raised  : String → RtResult α
  | blocked : RtResult α

/-- Enqueue a message on the mailbox of the targeted live process, leaving
every other process alone; an absent or terminated target leaves the
system unchanged. -/
def deliver (target : Nat) (msg : Term) : List Proc → List Proc
  | [] => []
  | p :: ps =>
      if p.pid == target && p.alive then
        { p with mailbox := p.mailbox ++ [msg] } :: ps
      else p :: deliver target msg ps

/-- Modelled from the spec: the runtime call `send` lowers to;
fire-and-forget, never blocks, never fails observably; an unreachable
process silently drops the message. -/
def sendMsg (s : RtSys) (target : Nat) (msg : Term) : RtResult RtSys :=
  .ok ⟨deliver target msg s.procs⟩

/-- Modelled from the spec: the receive loop's mailbox scan, walking the
mailbox in arrival order against the compiled Decision Tree and removing
the first structurally matching message. -/
def scanMailbox (tree : DTree) : List Term → Option (Term × List Term)
  | [] => none
  | m :: ms =>
      match evalTree tree [m] with
      | some _ => some (m, ms)
      | none =>
          match scanMailbox tree ms with
          | some r => some (r.1, m :: r.2)
          | none => none

/-! ## Concrete clauses of the guard-fallthrough property (spec section 8) -/

/-- The guard `x > 0` of the spec's guard-fallthrough example, reading the
variable bound by the tuple pattern out of the scrutinee. -/
def guardXPos : List Term → Bool := fun ts =>
  match ts with
  | [Term.tuple [Term.int x]] => decide (0 < x)
  | _ => false

/-- The spec's clause `({x} when x > 0, A)`. -/
def clauseA : Clause := ⟨[Pat.tup [Pat.bind ("x")]], some guardXPos⟩

/-- The spec's clause `({x}, B)`. -/
def clauseB : Clause := ⟨[Pat.tup [Pat.bind ("x")]], none⟩

/-- The spec's scrutinee tuple, the one-tuple holding zero. -/
def scrutZero : List Term := [Term.tuple [Term.int 0]]

/-! ## The source snapshot (the one header present under src/) -/

/-- The repository path of the one source file present in the snapshot. -/
def eirEnumsHeaderPath : String :=
  "src/compiler/codegen_llvm/lib/lumen/EIR/IR/EIREnums.h"

/-- The lines of `EIREnums.h`, transcribed from the source. -/
def eirEnumsHeaderLines : List String :=
  ["#ifndef EIR_IR_ENUMS_H",
   "#define EIR_IR_ENUMS_H",
   "",
   "#include \"llvm/ADT/DenseMapInfo.h\"",
   "#include \"llvm/ADT/Optional.h\"",
   "",
   "#include \"lumen/EIR/IR/EIREnums.h.inc\"",
   "",
   "#include <stdint.h>",
   "#include <string>",
   "",
   "#endif"]

/-- The snapshot of the repository: its files with their lines. -/
def sourceSnapshot : List (String × List String) :=
  [(eirEnumsHeaderPath, eirEnumsHeaderLines)]

/-- Is the line a preprocessor directive (first character a hash)? -/
def lineIsDirective (l : String) : Bool :=
  match l.data with
  | c :: _ => c == '#'
  | [] => false

/-- Is the line blank? -/
def lineIsBlank (l : String) : Bool := l.data.isEmpty

/-- The include of the generated op-set enumeration surface. -/
def opSetEnumInclude : String := "#include \"lumen/EIR/IR/EIREnums.h.inc\""

/-! ## Lemmas -/

theorem encode_decode_int (n : Int) (hlo : smallIntMin ≤ n) (hhi : n ≤ smallIntMax) :
    decodeSmallInt (encodeSmallInt n) = n := by
  have h61 : (2 : Int) ^ 61 = 2305843009213693952 := by norm_num
  have h60 : (2 : Int) ^ 60 = 1152921504606846976 := by norm_num
  have n61 : (2 : Nat) ^ 61 = 2305843009213693952 := by norm_num
  have n60 : (2 : Nat) ^ 60 = 1152921504606846976 := by norm_num
  simp only [smallIntMin, smallIntMax, h60] at hlo hhi
  simp only [decodeSmallInt, encodeSmallInt, intTag, h61, h60, n61, n60]
  split <;> omega

theorem alloc_tuple_elem (h : Heap) (es : List Nat) (i : Nat) (hi : i < es.length) :
    tupleElem (allocTuple h es).1 (allocTuple h es).2 i = es.get? i := by
  have hmod : (h.length * 8 + boxTag) % 8 = 0 := by simp [boxTag]
  have hdiv : (h.length * 8 + boxTag) / 8 = h.length := by simp [boxTag]
  have hhdr : tupleHeader es.length % 8 = 2 := by simp [tupleHeader, tupleHeaderTag]; omega
  have hhdr2 : tupleHeader es.length / 8 = es.length := by simp [tupleHeader, tupleHeaderTag]; omega
  simp only [allocTuple, tupleElem, derefBox, wordTag, hmod, hdiv]
  simp only [beq_self_eq_true, if_true, boxTag]
  rw [List.get?_concat_length]
  simp [hhdr, hhdr2, tupleHeaderTag, hi]

theorem lowerFold_none (fs : List Fn) : fs.foldl lowerStep none = none := by
  induction fs with
  | nil => rfl
  | cons f fs ih => simpa [lowerStep] using ih

theorem lowerFold_fail (fs : List Fn) (acc : Option (List BInstr))
    (hf : ∃ f ∈ fs, verifyFn f = false) : fs.foldl lowerStep acc = none := by
  induction fs generalizing acc with
  | nil => simp at hf
  | cons f fs ih =>
    obtain ⟨g, hg, hgv⟩ := hf
    rcases List.mem_cons.mp hg with rfl | hmem
    · cases acc with
      | none => simp only [List.foldl_cons, lowerStep]; exact lowerFold_none fs
      | some is =>
        simp only [List.foldl_cons, lowerStep, hgv, if_false]
        exact lowerFold_none fs
    · exact ih _ ⟨g, hmem, hgv⟩

theorem deliver_dead (t : Nat) (m : Term) (ps : List Proc)
    (hd : ∀ p ∈ ps, p.pid = t → p.alive = false) : deliver t m ps = ps := by
  induction ps with
  | nil => rfl
  | cons p ps ih =>
    have hcond : (p.pid == t && p.alive) = false := by
      by_cases hp : p.pid = t
      · simp [hp, hd p (List.mem_cons_self p ps) hp]
      · simp [hp]
    simp only [deliver, hcond, if_false, Bool.false_eq_true]
    rw [ih fun q hq hqt => hd q (List.mem_cons_of_mem p hq) hqt]

theorem emitBlocks_state_free (bs : List BasicBlock) (s1 s2 : Nat) :
    (emitBlocksFrom s1 bs).2 = (emitBlocksFrom s2 bs).2 := by
  induction bs generalizing s1 s2 with
  | nil => rfl
  | cons b bs ih => simp only [emitBlocksFrom, emitBlockFrom]; rw [ih]

theorem emitFns_state_free (fs : List Fn) (s1 s2 : Nat) :
    (emitFnsFrom s1 fs).2 = (emitFnsFrom s2 fs).2 := by
  induction fs generalizing s1 s2 with
  | nil => rfl
  | cons f fs ih =>
    simp only [emitFnsFrom, emitFnFrom]
    rw [ih, emitBlocks_state_free f.blocks s1 s2]

theorem scan_first_match (tree : DTree) (mb : List Term) (t : Term) (rest : List Term)
    (h : scanMailbox tree mb = some (t, rest)) :
    ∃ i, mb.get? i = some t ∧ (evalTree tree [t]).isSome ∧
      (∀ k, k < i → ∀ u, mb.get? k = some u → evalTree tree [u] = none) ∧
      rest = mb.take i ++ mb.drop (i + 1) := by
  induction mb generalizing rest with
  | nil => simp [scanMailbox] at h
  | cons m ms ih =>
    rw [scanMailbox] at h
    cases he : evalTree tree [m] with
    | some v =>
      rw [he] at h
      have ht : t = m ∧ rest = ms := by
        constructor <;> { injection h with h1; injection h1 with h2 h3; simp [h2, h3] }
      obtain ⟨rfl, rfl⟩ := ht
      exact ⟨0, rfl, by simp [he], fun k hk => by omega, by simp⟩
    | none =>
      rw [he] at h
      cases hs : scanMailbox tree ms with
      | none => rw [hs] at h; cases h
      | some pr =>
        rw [hs] at h
        have ht : t = pr.1 ∧ rest = m :: pr.2 := by
          constructor <;> { injection h with h1; injection h1 with h2 h3; simp [h2, h3] }
        obtain ⟨rfl, rfl⟩ := ht
        obtain ⟨i, h1, h2, h3, h4⟩ := ih pr.2 (by rw [hs])
        refine ⟨i + 1, by simpa using h1, h2, ?_, ?_⟩
        · intro k hk u hu
          cases k with
          | zero => simp at hu; rw [← hu]; exact he
          | succ k => exact h3 k (by omega) u (by simpa using hu)
        · simp [h4]

theorem patMatch_irref (p : Pat) (t : Term) (h : patTag p = none) : patMatch p t = true := by
  cases p <;> first | rfl | simp [patTag] at h

theorem patMatchList_length (ps : List Pat) (ts : List Term) (h : patMatchList ps ts = true) :
    ps.length = ts.length := by
  induction ps generalizing ts with
  | nil => cases ts with
    | nil => rfl
    | cons t ts => simp [patMatchList] at h
  | cons p ps ih => cases ts with
    | nil => simp [patMatchList] at h
    | cons t ts =>
      simp only [patMatchList, Bool.and_eq_true] at h
      simp [ih ts h.2]

theorem patMatchList_ne_length (ps : List Pat) (ts : List Term) (h : ps.length ≠ ts.length) :
    patMatchList ps ts = false := by
  cases hm : patMatchList ps ts with
  | false => rfl
  | true => exact absurd (patMatchList_length ps ts hm) h

theorem children_length (t : Term) : (children t).length = tagArity (tagOf t) := by
  cases t <;> rfl

theorem subPats_length (p : Pat) (tg : Tag) (h : patTag p = some tg) :
    (subPats p).length = tagArity tg := by
  cases p <;> simp [patTag] at h <;> subst h <;> rfl

theorem patMatch_tag_ne (p : Pat) (tg : Tag) (t : Term) (h : patTag p = some tg)
    (hne : tg ≠ tagOf t) : patMatch p t = false := by
  cases p <;> simp [patTag] at h <;> subst h <;> cases t <;>
    simp_all [patMatch, tagOf, patMatchList_ne_length]

theorem patMatch_tag_eq (p : Pat) (t : Term) (h : patTag p = some (tagOf t)) :
    patMatch p t = patMatchList (subPats p) (children t) := by
  cases p <;> simp [patTag] at h <;> cases t <;>
    simp_all [patMatch, tagOf, subPats, children, patMatchList]

theorem getSub_append (t : Term) (o o' : List Nat) :
    getSub t (o ++ o') = (getSub t o).bind fun c => getSub c o' := by
  induction o generalizing t with
  | nil => rfl
  | cons k ks ih =>
    simp only [List.cons_append, getSub]
    cases (children t).get? k with
    | none => rfl
    | some c => exact ih c

theorem getSub_single (t : Term) (k : Nat) : getSub t [k] = (children t).get? k := by
  simp only [getSub]
  cases (children t).get? k <;> rfl

theorem getOcc_append_one (ts : List Term) (o : Occ) (k : Nat) :
    getOcc ts (o ++ [k]) = (getOcc ts o).bind fun c => (children c).get? k := by
  unfold getOcc
  rw [getSub_append]
  cases getSub (Term.tuple ts) o with
  | none => rfl
  | some c => simp [getSub_single]

theorem patMatchList_wilds (us : List Term) : patMatchList (wilds us.length) us = true := by
  induction us with
  | nil => rfl
  | cons u us ih => simpa [wilds, List.replicate, patMatchList, patMatch] using ih

theorem colsMatch_append (ts : List Term) (as bs : List Occ) (ps qs : List Pat)
    (h : as.length = ps.length) :
    colsMatch ts (as ++ bs) (ps ++ qs) = (colsMatch ts as ps && colsMatch ts bs qs) := by
  induction as generalizing ps with
  | nil => cases ps with
    | nil => simp [colsMatch]
    | cons p ps => simp at h
  | cons a as ih => cases ps with
    | nil => simp at h
    | cons p ps =>
      simp only [List.cons_append, colsMatch, List.append_eq]
      rw [ih ps (by simpa using h), Bool.and_assoc]

theorem colsMatch_childOccs (ts : List Term) (o : Occ) (tc : Term)
    (ho : getOcc ts o = some tc) (qs : List Pat) (s : Nat)
    (hs : s + qs.length = (children tc).length) :
    colsMatch ts (childOccsFrom o s qs.length) qs = patMatchList qs ((children tc).drop s) := by
  induction qs generalizing s with
  | nil =>
    have : (children tc).drop s = [] := by
      apply List.drop_eq_nil_of_le
      simp at hs
      omega
    simp [childOccsFrom, colsMatch, this, patMatchList]
  | cons q qs ih =>
    have hslt : s < (children tc).length := by simp at hs; omega
    obtain ⟨c, hc⟩ : ∃ c, (children tc).get? s = some c := by
      rw [List.get?_eq_getElem?]
      exact ⟨(children tc)[s], List.getElem?_eq_getElem hslt⟩
    have hdrop : (children tc).drop s = c :: (children tc).drop (s + 1) := by
      rw [List.drop_eq_getElem_cons hslt]
      rw [List.get?_eq_getElem?] at hc
      simp only [List.getElem?_eq_getElem hslt, Option.some.injEq] at hc
      rw [hc]
    simp only [List.length_cons, childOccsFrom, List.range'_succ, List.map_cons, colsMatch,
      hdrop, patMatchList]
    have hocc1 : getOcc ts (o ++ [s]) = some c := by
      rw [getOcc_append_one, ho]
      simpa using hc
    have ihx := ih (s + 1) (by simp at hs ⊢; omega)
    simp only [occMatch, hocc1]
    rw [← ihx]
    rfl

theorem list_decomp {α : Type} (l : List α) (j : Nat) (d : α) (hj : j < l.length) :
    l = l.take j ++ [l.getD j d] ++ l.drop (j + 1) := by
  rw [List.getD_eq_getElem l d hj]
  conv_lhs => rw [← List.take_append_drop j l]
  rw [List.drop_eq_getElem_cons hj]
  simp

theorem colsMatch_three (ts : List Term) (A M B : List Occ) (P Q R : List Pat)
    (h1 : A.length = P.length) (h2 : M.length = Q.length) :
    colsMatch ts (A ++ M ++ B) (P ++ Q ++ R) =
      (colsMatch ts A P && colsMatch ts M Q && colsMatch ts B R) := by
  rw [List.append_assoc, List.append_assoc, colsMatch_append ts A _ P _ h1,
    colsMatch_append ts M B Q R h2, Bool.and_assoc]

theorem colsMatch_one (ts : List Term) (o : Occ) (p : Pat) :
    colsMatch ts [o] [p] = occMatch ts o p := by
  simp [colsMatch]

theorem colsMatch_irref (ts : List Term) (occs : List Occ) (ps : List Pat)
    (hlen : ps.length = occs.length)
    (hirr : ∀ p ∈ ps, patTag p = none)
    (hocc : ∀ o ∈ occs, (getOcc ts o).isSome) :
    colsMatch ts occs ps = true := by
  induction occs generalizing ps with
  | nil => cases ps with
    | nil => rfl
    | cons p ps => simp at hlen
  | cons o os ih => cases ps with
    | nil => simp at hlen
    | cons p ps =>
      obtain ⟨c, hc⟩ := Option.isSome_iff_exists.mp (hocc o (by simp))
      simp only [colsMatch, occMatch, hc, Bool.and_eq_true]
      exact ⟨patMatch_irref p c (hirr p (by simp)),
        ih ps (by simpa using hlen) (fun q hq => hirr q (by simp [hq]))
          (fun o' ho' => hocc o' (by simp [ho']))⟩

theorem patsWeight_append (ps qs : List Pat) :
    patsWeight (ps ++ qs) = patsWeight ps + patsWeight qs := by
  induction ps with
  | nil => simp [patsWeight]
  | cons p ps ih => simp [patsWeight, ih]; omega

theorem patsWeight_wilds (n : Nat) : patsWeight (wilds n) = 0 := by
  induction n with
  | zero => rfl
  | succ n ih => simpa [wilds, List.replicate, patsWeight, patWeight] using ih

theorem patWeight_subPats (p : Pat) (tg : Tag) (h : patTag p = some tg) :
    patWeight p = 1 + patsWeight (subPats p) := by
  cases p <;> simp [patTag] at h <;> simp [patWeight, subPats, patsWeight] <;> omega

theorem patsWeight_take_drop (ps : List Pat) (j : Nat) :
    patsWeight (ps.take j) + patsWeight (ps.drop (j + 1)) ≤ patsWeight ps := by
  induction ps generalizing j with
  | nil => simp [patsWeight]
  | cons p tl ih =>
    cases j with
    | zero => simp [patsWeight]
    | succ j =>
      simp only [List.take_succ_cons, List.drop_succ_cons, patsWeight, patsWeight_append]
      have := ih j
      simp [patsWeight_append] at this ⊢
      omega

theorem colPat_some_lt (r : MRow) (j : Nat) (tg : Tag) (h : patTag (colPat r j) = some tg) :
    j < r.pats.length := by
  by_contra hj
  push_neg at hj
  rw [colPat, List.getD_eq_default _ _ hj] at h
  simp [patTag] at h

theorem columnTags_mem (rows : List MRow) (j : Nat) (r : MRow) (tg : Tag) (hr : r ∈ rows)
    (h : patTag (colPat r j) = some tg) : tg ∈ columnTags rows j := by
  simp only [columnTags, List.mem_dedup, List.mem_filterMap]
  exact ⟨r, hr, h⟩

theorem specRow_some_colsMatch (ts : List Term) (occs : List Occ) (j : Nat) (tdisc : Term)
    (r r' : MRow) (hj : j < occs.length) (hlen : r.pats.length = occs.length)
    (ht : getOcc ts (occs.getD j []) = some tdisc)
    (hs : specRow j (tagOf tdisc) r = some r') :
    r'.grd = r.grd ∧ r'.idx = r.idx ∧
    colsMatch ts (specOccs j (tagOf tdisc) occs) r'.pats = colsMatch ts occs r.pats := by
  have hjp : j < r.pats.length := by omega
  have htake : (occs.take j).length = (r.pats.take j).length := by
    simp [List.length_take]
    omega
  have horig : colsMatch ts occs r.pats =
      (colsMatch ts (occs.take j) (r.pats.take j) &&
        occMatch ts (occs.getD j []) (colPat r j) &&
        colsMatch ts (occs.drop (j + 1)) (r.pats.drop (j + 1))) := by
    conv_lhs => rw [list_decomp occs j [] hj, list_decomp r.pats j Pat.wild hjp]
    rw [colsMatch_three ts _ _ _ _ _ _ htake rfl, colsMatch_one]
    rfl
  have hchild : (children tdisc).length = tagArity (tagOf tdisc) := children_length tdisc
  cases hpt : patTag (colPat r j) with
  | none =>
    simp only [specRow, hpt] at hs
    have hr' := (Option.some.inj hs).symm
    subst hr'
    dsimp only
    refine ⟨rfl, rfl, ?_⟩
    have hmidlen : (childOccs (occs.getD j []) (tagArity (tagOf tdisc))).length =
        (wilds (tagArity (tagOf tdisc))).length := by
      simp [childOccs, childOccsFrom, wilds]
    rw [horig, specOccs, colsMatch_three ts _ _ _ _ _ _ htake hmidlen]
    have hmid : colsMatch ts (childOccs (occs.getD j []) (tagArity (tagOf tdisc)))
        (wilds (tagArity (tagOf tdisc))) = true := by
      have hwl : (wilds (tagArity (tagOf tdisc))).length = tagArity (tagOf tdisc) := by
        simp [wilds]
      have hcc := colsMatch_childOccs ts (occs.getD j []) tdisc ht
        (wilds (tagArity (tagOf tdisc))) 0 (by rw [hwl]; omega)
      rw [hwl] at hcc
      rw [childOccs, hcc, List.drop_zero, ← hchild]
      exact patMatchList_wilds (children tdisc)
    have hoccm : occMatch ts (occs.getD j []) (colPat r j) = true := by
      simp only [occMatch, ht]
      exact patMatch_irref _ _ hpt
    rw [hmid, hoccm]
  | some tg' =>
    simp only [specRow, hpt] at hs
    by_cases htg : tg' = tagOf tdisc
    · rw [htg] at hpt
      rw [if_pos htg] at hs
      have hr' := (Option.some.inj hs).symm
      subst hr'
      dsimp only
      refine ⟨rfl, rfl, ?_⟩
      have hsl : (subPats (colPat r j)).length = tagArity (tagOf tdisc) :=
        subPats_length _ _ hpt
      have hmidlen : (childOccs (occs.getD j []) (tagArity (tagOf tdisc))).length =
          (subPats (colPat r j)).length := by
        simp [childOccs, childOccsFrom, hsl]
      rw [horig, specOccs, colsMatch_three ts _ _ _ _ _ _ htake hmidlen]
      have hmid : colsMatch ts (childOccs (occs.getD j []) (tagArity (tagOf tdisc)))
          (subPats (colPat r j)) = patMatchList (subPats (colPat r j)) (children tdisc) := by
        have hcc := colsMatch_childOccs ts (occs.getD j []) tdisc ht
          (subPats (colPat r j)) 0 (by rw [hsl]; omega)
        rw [hsl] at hcc
        rw [childOccs, hcc, List.drop_zero]
      have hoccm : occMatch ts (occs.getD j []) (colPat r j) =
          patMatchList (subPats (colPat r j)) (children tdisc) := by
        simp only [occMatch, ht]
        exact patMatch_tag_eq _ _ hpt
      rw [hmid, hoccm]
    · simp [htg] at hs

theorem specRow_none_colsMatch (ts : List Term) (occs : List Occ) (j : Nat) (tdisc : Term)
    (r : MRow) (hj : j < occs.length) (hlen : r.pats.length = occs.length)
    (ht : getOcc ts (occs.getD j []) = some tdisc)
    (hs : specRow j (tagOf tdisc) r = none) :
    colsMatch ts occs r.pats = false := by
  have hjp : j < r.pats.length := by omega
  have htake : (occs.take j).length = (r.pats.take j).length := by
    simp [List.length_take]
    omega
  cases hpt : patTag (colPat r j) with
  | none => simp [specRow, hpt] at hs
  | some tg' =>
    simp only [specRow, hpt] at hs
    by_cases htg : tg' = tagOf tdisc
    · simp [htg] at hs
    · have hpm : patMatch (colPat r j) tdisc = false := patMatch_tag_ne _ _ _ hpt htg
      conv_lhs => rw [list_decomp occs j [] hj, list_decomp r.pats j Pat.wild hjp]
      rw [colsMatch_three ts _ _ _ _ _ _ htake rfl, colsMatch_one]
      have : occMatch ts (occs.getD j []) (r.pats.getD j Pat.wild) = false := by
        simp only [occMatch, ht]
        exact hpm
      rw [this]
      simp

theorem defRow_some_colsMatch (ts : List Term) (occs : List Occ) (j : Nat) (tdisc : Term)
    (r r' : MRow) (hj : j < occs.length) (hlen : r.pats.length = occs.length)
    (ht : getOcc ts (occs.getD j []) = some tdisc)
    (hs : defRow j r = some r') :
    r'.grd = r.grd ∧ r'.idx = r.idx ∧
    colsMatch ts (defOccs j occs) r'.pats = colsMatch ts occs r.pats := by
  have hjp : j < r.pats.length := by omega
  have htake : (occs.take j).length = (r.pats.take j).length := by
    simp [List.length_take]
    omega
  cases hpt : patTag (colPat r j) with
  | none =>
    simp only [defRow, hpt] at hs
    have hr' := (Option.some.inj hs).symm
    subst hr'
    dsimp only
    refine ⟨rfl, rfl, ?_⟩
    have horig : colsMatch ts occs r.pats =
        (colsMatch ts (occs.take j) (r.pats.take j) &&
          occMatch ts (occs.getD j []) (colPat r j) &&
          colsMatch ts (occs.drop (j + 1)) (r.pats.drop (j + 1))) := by
      conv_lhs => rw [list_decomp occs j [] hj, list_decomp r.pats j Pat.wild hjp]
      rw [colsMatch_three ts _ _ _ _ _ _ htake rfl, colsMatch_one]
      rfl
    have hoccm : occMatch ts (occs.getD j []) (colPat r j) = true := by
      simp only [occMatch, ht]
      exact patMatch_irref _ _ hpt
    rw [horig, hoccm, defOccs, colsMatch_append ts _ _ _ _ htake]
    simp
  | some tg' => simp [defRow, hpt] at hs

theorem defRow_none_spec (j : Nat) (tg : Tag) (r : MRow) (hs : defRow j r = none)
    (hne : ∀ tg', patTag (colPat r j) = some tg' → tg' ≠ tg) :
    specRow j tg r = none := by
  cases hpt : patTag (colPat r j) with
  | none => simp [defRow, hpt] at hs
  | some tg' => simp [specRow, hpt, hne tg' hpt]

theorem matrixSel_specRows (ts : List Term) (occs : List Occ) (j : Nat) (tdisc : Term)
    (rows : List MRow) (hj : j < occs.length)
    (hlen : ∀ r ∈ rows, r.pats.length = occs.length)
    (ht : getOcc ts (occs.getD j []) = some tdisc) :
    matrixSel ts (specOccs j (tagOf tdisc) occs) (specRows j (tagOf tdisc) rows) =
      matrixSel ts occs rows := by
  induction rows with
  | nil => rfl
  | cons r rest ih =>
    have hlr := hlen r (by simp)
    have hlrest : ∀ r' ∈ rest, r'.pats.length = occs.length := fun r' h => hlen r' (by simp [h])
    cases hs : specRow j (tagOf tdisc) r with
    | some r' =>
      obtain ⟨hg, hi, hcm⟩ := specRow_some_colsMatch ts occs j tdisc r r' hj hlr ht hs
      simp only [specRows, List.filterMap_cons, hs, matrixSel]
      rw [hcm, hg, hi]
      have ihx := ih hlrest
      rw [specRows] at ihx
      rw [ihx]
    | none =>
      have hcm := specRow_none_colsMatch ts occs j tdisc r hj hlr ht hs
      simp only [specRows, List.filterMap_cons, hs, matrixSel, hcm, Bool.false_and]
      have ihx := ih hlrest
      rw [specRows] at ihx
      simpa using ihx

theorem matrixSel_defRows (ts : List Term) (occs : List Occ) (j : Nat) (tdisc : Term)
    (rows : List MRow) (hj : j < occs.length)
    (hlen : ∀ r ∈ rows, r.pats.length = occs.length)
    (ht : getOcc ts (occs.getD j []) = some tdisc)
    (hnot : tagOf tdisc ∉ columnTags rows j) :
    matrixSel ts (defOccs j occs) (defRows j rows) = matrixSel ts occs rows := by
  induction rows with
  | nil => rfl
  | cons r rest ih =>
    have hlr := hlen r (by simp)
    have hlrest : ∀ r' ∈ rest, r'.pats.length = occs.length := fun r' h => hlen r' (by simp [h])
    have hnotrest : tagOf tdisc ∉ columnTags rest j := by
      intro hmem
      apply hnot
      obtain ⟨rr, hrr, hrt⟩ := by
        simpa only [columnTags, List.mem_dedup, List.mem_filterMap] using hmem
      exact columnTags_mem _ j rr _ (by simp [hrr]) hrt
    cases hs : defRow j r with
    | some r' =>
      obtain ⟨hg, hi, hcm⟩ := defRow_some_colsMatch ts occs j tdisc r r' hj hlr ht hs
      simp only [defRows, List.filterMap_cons, hs, matrixSel]
      rw [hcm, hg, hi]
      have ihx := ih hlrest hnotrest
      rw [defRows] at ihx
      rw [ihx]
    | none =>
      have hne : ∀ tg', patTag (colPat r j) = some tg' → tg' ≠ tagOf tdisc := by
        intro tg' hpt heq
        exact hnot (heq ▸ columnTags_mem _ j r tg' (by simp) hpt)
      have hspec := defRow_none_spec j (tagOf tdisc) r hs hne
      have hcm := specRow_none_colsMatch ts occs j tdisc r hj hlr ht hspec
      simp only [defRows, List.filterMap_cons, hs, matrixSel, hcm, Bool.false_and]
      have ihx := ih hlrest hnotrest
      rw [defRows] at ihx
      simpa using ihx

theorem evalCases_map (tg : Tag) (tags : List Tag) (f : Tag → DTree) (ts : List Term) :
    evalCases tg (tags.map fun tg' => (tg', f tg')) ts =
      if tg ∈ tags then some (evalTree (f tg) ts) else none := by
  induction tags with
  | nil => rfl
  | cons a rest ih =>
    simp only [List.map_cons, evalCases]
    by_cases hta : tg = a
    · subst hta
      simp
    · simp [hta, ih, List.mem_cons]

theorem firstRefCol_any (r : MRow) (rest : List MRow) (hirr : rowIrrefutable r.pats = false) :
    ((r :: rest).any fun r' => (patTag (colPat r' (firstRefCol (r :: rest)))).isSome) = true := by
  obtain ⟨p, hp, hps⟩ : ∃ p ∈ r.pats, (patTag p).isSome := by
    rw [rowIrrefutable] at hirr
    obtain ⟨p, hp, hnp⟩ := List.all_eq_false.mp hirr
    exact ⟨p, hp, Option.isSome_iff_ne_none.mpr (by simpa using hnp)⟩
  obtain ⟨j0, hj0lt, hj0⟩ := List.mem_iff_getElem.mp hp
  have hpred0 : ((r :: rest).any fun r' => (patTag (colPat r' j0)).isSome) = true := by
    apply List.any_eq_true.mpr
    refine ⟨r, by simp, ?_⟩
    rw [colPat, List.getD_eq_getElem r.pats Pat.wild hj0lt, hj0]
    exact hps
  show ((r :: rest).any fun r' =>
    (patTag (colPat r' (((List.range r.pats.length).find? fun j =>
      (r :: rest).any fun r2 => (patTag (colPat r2 j)).isSome).getD 0))).isSome) = true
  cases hf : (List.range r.pats.length).find? fun j =>
      (r :: rest).any fun r2 => (patTag (colPat r2 j)).isSome with
  | some j =>
    simpa using List.find?_some hf
  | none =>
    exfalso
    have := List.find?_eq_none.mp hf j0 (List.mem_range.mpr hj0lt)
    exact absurd hpred0 (by simpa using this)

theorem any_col_lt (rows : List MRow) (j : Nat) (occs : List Occ)
    (hany : (rows.any fun r' => (patTag (colPat r' j)).isSome) = true)
    (hlen : ∀ r ∈ rows, r.pats.length = occs.length) : j < occs.length := by
  obtain ⟨r, hr, hsome⟩ := List.any_eq_true.mp hany
  obtain ⟨tg, htg⟩ := Option.isSome_iff_exists.mp hsome
  have := colPat_some_lt r j tg htg
  have := hlen r hr
  omega

theorem specRow_weight_le (j : Nat) (tg : Tag) (r r' : MRow) (hs : specRow j tg r = some r') :
    patsWeight r'.pats ≤ patsWeight r.pats := by
  cases hpt : patTag (colPat r j) with
  | none =>
    simp only [specRow, hpt] at hs
    have hr' := (Option.some.inj hs).symm
    subst hr'
    dsimp only
    rw [patsWeight_append, patsWeight_append, patsWeight_wilds]
    have := patsWeight_take_drop r.pats j
    omega
  | some tg' =>
    simp only [specRow, hpt] at hs
    by_cases htg : tg' = tg
    · rw [if_pos htg] at hs
      have hr' := (Option.some.inj hs).symm
      subst hr'
      dsimp only
      have hjp := colPat_some_lt r j tg' hpt
      have hdec := list_decomp r.pats j Pat.wild hjp
      have hw : patsWeight r.pats = patsWeight (r.pats.take j) + patWeight (colPat r j) +
          patsWeight (r.pats.drop (j + 1)) := by
        conv_lhs => rw [hdec]
        rw [patsWeight_append, patsWeight_append]
        simp [patsWeight, colPat]
      rw [patsWeight_append, patsWeight_append]
      rw [patWeight_subPats _ _ hpt] at hw
      omega
    · simp [htg] at hs

theorem specRow_weight_lt (j : Nat) (tg : Tag) (r r' : MRow) (hs : specRow j tg r = some r')
    (hpt : patTag (colPat r j) = some tg) :
    patsWeight r'.pats < patsWeight r.pats := by
  simp only [specRow, hpt, if_pos rfl] at hs
  have hr' := (Option.some.inj hs).symm
  subst hr'
  dsimp only
  have hjp := colPat_some_lt r j tg hpt
  have hdec := list_decomp r.pats j Pat.wild hjp
  have hw : patsWeight r.pats = patsWeight (r.pats.take j) + patWeight (colPat r j) +
      patsWeight (r.pats.drop (j + 1)) := by
    conv_lhs => rw [hdec]
    rw [patsWeight_append, patsWeight_append]
    simp [patsWeight, colPat]
  rw [patsWeight_append, patsWeight_append]
  rw [patWeight_subPats _ _ hpt] at hw
  omega

theorem defRow_weight_le (j : Nat) (r r' : MRow) (hs : defRow j r = some r') :
    patsWeight r'.pats ≤ patsWeight r.pats := by
  cases hpt : patTag (colPat r j) with
  | none =>
    simp only [defRow, hpt] at hs
    have hr' := (Option.some.inj hs).symm
    subst hr'
    dsimp only
    rw [patsWeight_append]
    exact patsWeight_take_drop r.pats j
  | some tg' => simp [defRow, hpt] at hs

theorem specRows_measure_le (j : Nat) (tg : Tag) (rows : List MRow) :
    matrixWeight (specRows j tg rows) + (specRows j tg rows).length ≤
      matrixWeight rows + rows.length := by
  induction rows with
  | nil => simp [specRows, matrixWeight]
  | cons r rest ih =>
    cases hs : specRow j tg r with
    | some r' =>
      simp only [specRows, List.filterMap_cons, hs, matrixWeight, List.length_cons]
      have := specRow_weight_le j tg r r' hs
      rw [specRows] at ih
      omega
    | none =>
      simp only [specRows, List.filterMap_cons, hs, matrixWeight, List.length_cons]
      rw [specRows] at ih
      omega

theorem specRows_measure_lt (j : Nat) (tg : Tag) (rows : List MRow)
    (hex : ∃ r ∈ rows, patTag (colPat r j) = some tg) :
    matrixWeight (specRows j tg rows) + (specRows j tg rows).length <
      matrixWeight rows + rows.length := by
  induction rows with
  | nil => simp at hex
  | cons r rest ih =>
    obtain ⟨r0, hr0, hpt0⟩ := hex
    rcases List.mem_cons.mp hr0 with rfl | hmem
    · have hsome : ∃ r', specRow j tg r0 = some r' := by
        simp only [specRow, hpt0, if_pos rfl]
        exact ⟨_, rfl⟩
      obtain ⟨r', hs⟩ := hsome
      simp only [specRows, List.filterMap_cons, hs, matrixWeight, List.length_cons]
      have h1 := specRow_weight_lt j tg r0 r' hs hpt0
      have h2 := specRows_measure_le j tg rest
      rw [specRows] at h2
      omega
    · cases hs : specRow j tg r with
      | some r' =>
        simp only [specRows, List.filterMap_cons, hs, matrixWeight, List.length_cons]
        have h1 := specRow_weight_le j tg r r' hs
        have h2 := ih ⟨r0, hmem, hpt0⟩
        rw [specRows] at h2
        omega
      | none =>
        simp only [specRows, List.filterMap_cons, hs, matrixWeight, List.length_cons]
        have h2 := ih ⟨r0, hmem, hpt0⟩
        rw [specRows] at h2
        omega

theorem defRows_measure_le (j : Nat) (rows : List MRow) :
    matrixWeight (defRows j rows) + (defRows j rows).length ≤
      matrixWeight rows + rows.length := by
  induction rows with
  | nil => simp [defRows, matrixWeight]
  | cons r rest ih =>
    cases hs : defRow j r with
    | some r' =>
      simp only [defRows, List.filterMap_cons, hs, matrixWeight, List.length_cons]
      have := defRow_weight_le j r r' hs
      rw [defRows] at ih
      omega
    | none =>
      simp only [defRows, List.filterMap_cons, hs, matrixWeight, List.length_cons]
      rw [defRows] at ih
      omega

theorem defRows_measure_lt (j : Nat) (rows : List MRow)
    (hex : (rows.any fun r' => (patTag (colPat r' j)).isSome) = true) :
    matrixWeight (defRows j rows) + (defRows j rows).length <
      matrixWeight rows + rows.length := by
  induction rows with
  | nil => simp at hex
  | cons r rest ih =>
    rw [List.any_cons] at hex
    rcases Bool.or_eq_true_iff.mp hex with hhead | htail
    · obtain ⟨tg, hpt⟩ := Option.isSome_iff_exists.mp hhead
      have hnone : defRow j r = none := by simp [defRow, hpt]
      simp only [defRows, List.filterMap_cons, hnone, matrixWeight, List.length_cons]
      have h2 := defRows_measure_le j rest
      rw [defRows] at h2
      omega
    · cases hs : defRow j r with
      | some r' =>
        simp only [defRows, List.filterMap_cons, hs, matrixWeight, List.length_cons]
        have h1 := defRow_weight_le j r r' hs
        have h2 := ih htail
        rw [defRows] at h2
        omega
      | none =>
        simp only [defRows, List.filterMap_cons, hs, matrixWeight, List.length_cons]
        have h2 := ih htail
        rw [defRows] at h2
        omega

theorem specRow_pats_length (j : Nat) (tg : Tag) (r r' : MRow) (occs : List Occ)
    (hs : specRow j tg r = some r') (hlen : r.pats.length = occs.length)
    (hj : j < occs.length) :
    r'.pats.length = (specOccs j tg occs).length := by
  have hco : (childOccs (occs.getD j []) (tagArity tg)).length = tagArity tg := by
    simp [childOccs, childOccsFrom]
  cases hpt : patTag (colPat r j) with
  | none =>
    simp only [specRow, hpt] at hs
    have hr' := (Option.some.inj hs).symm
    subst hr'
    dsimp only
    simp only [specOccs, List.length_append, hco, List.length_take, List.length_drop,
      wilds, List.length_replicate]
    omega
  | some tg' =>
    simp only [specRow, hpt] at hs
    by_cases htg : tg' = tg
    · rw [if_pos htg] at hs
      have hr' := (Option.some.inj hs).symm
      subst hr'
      dsimp only
      have hsl : (subPats (colPat r j)).length = tagArity tg' := subPats_length _ _ hpt
      simp only [specOccs, List.length_append, hco, List.length_take, List.length_drop, hsl,
        htg]
      omega
    · simp [htg] at hs

theorem defRow_pats_length (j : Nat) (r r' : MRow) (occs : List Occ)
    (hs : defRow j r = some r') (hlen : r.pats.length = occs.length) :
    r'.pats.length = (defOccs j occs).length := by
  cases hpt : patTag (colPat r j) with
  | none =>
    simp only [defRow, hpt] at hs
    have hr' := (Option.some.inj hs).symm
    subst hr'
    dsimp only
    simp only [defOccs, List.length_append, List.length_take, List.length_drop]
    omega
  | some tg' => simp [defRow, hpt] at hs

theorem specRows_pats_length (j : Nat) (tg : Tag) (rows : List MRow) (occs : List Occ)
    (hlen : ∀ r ∈ rows, r.pats.length = occs.length) (hj : j < occs.length) :
    ∀ r' ∈ specRows j tg rows, r'.pats.length = (specOccs j tg occs).length := by
  intro r' hr'
  obtain ⟨r, hr, hs⟩ := List.mem_filterMap.mp hr'
  exact specRow_pats_length j tg r r' occs hs (hlen r hr) hj

theorem defRows_pats_length (j : Nat) (rows : List MRow) (occs : List Occ)
    (hlen : ∀ r ∈ rows, r.pats.length = occs.length) :
    ∀ r' ∈ defRows j rows, r'.pats.length = (defOccs j occs).length := by
  intro r' hr'
  obtain ⟨r, hr, hs⟩ := List.mem_filterMap.mp hr'
  exact defRow_pats_length j r r' occs hs (hlen r hr)

theorem specOccs_isSome (ts : List Term) (occs : List Occ) (j : Nat) (tdisc : Term)
    (hocc : ∀ o ∈ occs, (getOcc ts o).isSome)
    (ht : getOcc ts (occs.getD j []) = some tdisc) :
    ∀ o ∈ specOccs j (tagOf tdisc) occs, (getOcc ts o).isSome := by
  intro o ho
  rw [specOccs] at ho
  rcases List.mem_append.mp ho with hm | hdrop
  · rcases List.mem_append.mp hm with htk | hmid
    · exact hocc o (List.take_subset j occs htk)
    · simp only [childOccs, childOccsFrom, List.mem_map, List.mem_range'] at hmid
      obtain ⟨k, hk, rfl⟩ := hmid
      rw [getOcc_append_one, ht]
      have hklt : k < (children tdisc).length := by
        rw [children_length tdisc]
        omega
      simp only [Option.some_bind]
      rw [List.get?_eq_getElem?]
      simp [List.getElem?_eq_getElem hklt]
  · exact hocc o (List.drop_subset (j + 1) occs hdrop)

theorem defOccs_isSome (ts : List Term) (occs : List Occ) (j : Nat)
    (hocc : ∀ o ∈ occs, (getOcc ts o).isSome) :
    ∀ o ∈ defOccs j occs, (getOcc ts o).isSome := by
  intro o ho
  rcases List.mem_append.mp ho with htk | hdrop
  · exact hocc o (List.take_subset j occs htk)
  · exact hocc o (List.drop_subset (j + 1) occs hdrop)

theorem rowIrrefutable_all (ps : List Pat) (h : rowIrrefutable ps = true) :
    ∀ p ∈ ps, patTag p = none := by
  intro p hp
  have := List.all_eq_true.mp h p hp
  simpa [Option.isNone_iff_eq_none] using this

theorem compileF_correct (fuel : Nat) (occs : List Occ) (rows : List MRow) (ts : List Term)
    (hlen : ∀ r ∈ rows, r.pats.length = occs.length)
    (hocc : ∀ o ∈ occs, (getOcc ts o).isSome)
    (hfuel : matrixWeight rows + rows.length < fuel) :
    evalTree (compileF fuel occs rows) ts = matrixSel ts occs rows := by
  induction fuel generalizing occs rows with
  | zero => omega
  | succ fuel ih =>
    cases rows with
    | nil => rfl
    | cons r rest =>
      by_cases hirr : rowIrrefutable r.pats
      · rw [compileF, if_pos hirr]
        have hcm : colsMatch ts occs r.pats = true :=
          colsMatch_irref ts occs r.pats (hlen r (by simp)) (rowIrrefutable_all _ hirr) hocc
        rw [evalTree, matrixSel, hcm]
        simp only [Bool.true_and]
        cases hg : r.grd ts with
        | true => simp [evalTree]
        | false =>
          simp only [Bool.false_eq_true, if_false]
          apply ih occs rest (fun r' h => hlen r' (by simp [h])) hocc
          simp only [matrixWeight, List.length_cons] at hfuel
          omega
      · rw [compileF, if_neg hirr]
        have hany := firstRefCol_any r rest (by simpa using hirr)
        have hj : firstRefCol (r :: rest) < occs.length :=
          any_col_lt (r :: rest) _ occs hany hlen
        have hojmem : occs.getD (firstRefCol (r :: rest)) [] ∈ occs := by
          rw [List.getD_eq_getElem occs [] hj]
          exact List.getElem_mem _
        obtain ⟨tdisc, ht⟩ := Option.isSome_iff_exists.mp (hocc _ hojmem)
        simp only [evalTree, ht, evalCases_map]
        by_cases htg : tagOf tdisc ∈ columnTags (r :: rest) (firstRefCol (r :: rest))
        · rw [if_pos htg]
          have hex : ∃ r0 ∈ r :: rest,
              patTag (colPat r0 (firstRefCol (r :: rest))) = some (tagOf tdisc) := by
            simpa [columnTags, List.mem_dedup, List.mem_filterMap] using htg
          have hlt := specRows_measure_lt (firstRefCol (r :: rest)) (tagOf tdisc) (r :: rest) hex
          have heval := ih (specOccs (firstRefCol (r :: rest)) (tagOf tdisc) occs)
            (specRows (firstRefCol (r :: rest)) (tagOf tdisc) (r :: rest))
            (specRows_pats_length _ _ _ occs hlen hj)
            (specOccs_isSome ts occs _ tdisc hocc ht)
            (by omega)
          rw [heval]
          exact matrixSel_specRows ts occs _ tdisc (r :: rest) hj hlen ht
        · rw [if_neg htg]
          have hlt := defRows_measure_lt (firstRefCol (r :: rest)) (r :: rest) hany
          have heval := ih (defOccs (firstRefCol (r :: rest)) occs)
            (defRows (firstRefCol (r :: rest)) (r :: rest))
            (defRows_pats_length _ _ occs hlen)
            (defOccs_isSome ts occs _ hocc)
            (by omega)
          rw [heval]
          exact matrixSel_defRows ts occs _ tdisc (r :: rest) hj hlen ht htg

theorem rootOccs_length (n : Nat) : (rootOccs n).length = n := by
  simp [rootOccs, childOccs, childOccsFrom]

theorem rootOccs_isSome (ts : List Term) (n : Nat) (hts : ts.length = n) :
    ∀ o ∈ rootOccs n, (getOcc ts o).isSome := by
  intro o ho
  simp only [rootOccs, childOccs, childOccsFrom, List.mem_map, List.mem_range'] at ho
  obtain ⟨k, hk, rfl⟩ := ho
  obtain ⟨i, hi, hik⟩ := hk
  have hklt : k < ts.length := by omega
  simp only [List.nil_append]
  have hocc1 : getOcc ts [k] = ts.get? k := by
    have h2 := getOcc_append_one ts [] k
    simpa [getOcc, getSub, children, Option.some_bind] using h2
  rw [hocc1, List.get?_eq_getElem?]
  simp [List.getElem?_eq_getElem hklt]

theorem clauseRowsFrom_lengths (cs : List Clause) (n i : Nat)
    (harity : ∀ c ∈ cs, c.pats.length = n) :
    ∀ r ∈ clauseRowsFrom i cs, r.pats.length = n := by
  induction cs generalizing i with
  | nil => intro r hr; simp [clauseRowsFrom] at hr
  | cons c cs ih =>
    intro r hr
    rcases List.mem_cons.mp hr with rfl | hmem
    · exact harity c (by simp)
    · exact ih (i + 1) (fun c' h => harity c' (by simp [h])) r hmem

theorem clauseRowsFrom_sel (cs : List Clause) (ts : List Term) (n i : Nat)
    (harity : ∀ c ∈ cs, c.pats.length = n) (hts : ts.length = n) :
    matrixSel ts (rootOccs n) (clauseRowsFrom i cs) = naiveSelFrom i cs ts := by
  induction cs generalizing i with
  | nil => rfl
  | cons c cs ih =>
    have harc : c.pats.length = n := harity c (by simp)
    have hcm : colsMatch ts (rootOccs n) c.pats = patMatchList c.pats ts := by
      have hroot : getOcc ts ([] : Occ) = some (Term.tuple ts) := rfl
      have := colsMatch_childOccs ts [] (Term.tuple ts) hroot c.pats 0
        (by simp [children]; omega)
      rw [rootOccs, childOccs, ← harc, this]
      simp [children]
    simp only [clauseRowsFrom, matrixSel, naiveSelFrom, hcm]
    rw [ih (i + 1) (fun c' h => harity c' (by simp [h]))]

theorem compile_eval_eq_naive (cs : List Clause) (ts : List Term) (n : Nat)
    (harity : ∀ c ∈ cs, c.pats.length = n) (hts : ts.length = n) :
    evalTree (compileClauses cs n) ts = naiveSelect cs ts := by
  rw [compileClauses, naiveSelect]
  rw [compileF_correct (matrixFuel (clauseRows cs)) (rootOccs n) (clauseRows cs) ts
    (by rw [rootOccs_length]; exact clauseRowsFrom_lengths cs n 0 harity)
    (rootOccs_isSome ts n hts)
    (by simp [matrixFuel])]
  exact clauseRowsFrom_sel cs ts n 0 harity hts

theorem reachWarnsFrom_warning (fname : String) (i : Nat) (prior cs : List Clause) :
    ∀ d ∈ reachWarnsFrom fname i prior cs, d.severity = Severity.warning := by
  induction cs generalizing i prior with
  | nil => intro d hd; simp [reachWarnsFrom] at hd
  | cons c cs ih =>
    intro d hd
    simp only [reachWarnsFrom] at hd
    rcases List.mem_append.mp hd with h1 | h2
    · by_cases hu : clauseUnreachable prior c
      · simp only [hu, if_true, List.mem_singleton] at h1
        rw [h1]
      · simp [hu] at h1
    · exact ih (i + 1) (prior ++ [c]) d h2

theorem reachSetAux_sound (f : Fn) (n : Nat) : ∀ b ∈ reachSetAux f n, ReachableB f b := by
  induction n with
  | zero =>
    intro b hb
    simp only [reachSetAux, List.mem_singleton] at hb
    subst hb
    exact ⟨[f.entry], EPath.start⟩
  | succ n ih =>
    intro b hb
    simp only [reachSetAux, reachStep, List.mem_dedup, List.mem_append,
      List.mem_flatMap] at hb
    rcases hb with h | ⟨a, ha, hsucc⟩
    · exact ih b h
    · obtain ⟨p, hp⟩ := ih a ha
      exact ⟨p ++ [b], EPath.step hp hsucc⟩

theorem epath_entry_mem (f : Fn) (b : BlockId) (p : List BlockId) (h : EPath f b p) :
    f.entry ∈ p := by
  induction h with
  | start => simp
  | step _ _ ih => exact List.mem_append.mpr (Or.inl ih)

theorem opDefIdxFrom_spec (v : ValId) (ops : List Operation) (i k : Nat)
    (h : opDefIdxFrom i v ops = some k) :
    i ≤ k ∧ ∃ op, ops.get? (k - i) = some op ∧ op.results.contains v = true := by
  induction ops generalizing i with
  | nil => simp [opDefIdxFrom] at h
  | cons op ops ih =>
    rw [opDefIdxFrom] at h
    by_cases hc : op.results.contains v
    · rw [if_pos hc] at h
      have hik := Option.some.inj h
      subst hik
      exact ⟨Nat.le_refl _, op, by simp, hc⟩
    · rw [if_neg hc] at h
      obtain ⟨hik, op', hop', hres⟩ := ih (i + 1) h
      refine ⟨by omega, op', ?_, hres⟩
      have hki : k - i = (k - (i + 1)) + 1 := by omega
      rw [hki]
      simpa using hop'

theorem defSiteOf_param (f : Fn) (v : ValId) (h : defSiteOf f v = some .param) :
    v ∈ f.params := by
  unfold defSiteOf at h
  by_cases hp : f.params.contains v
  · simpa using hp
  · rw [if_neg hp] at h
    cases hf : f.blocks.find? fun blk => (opDefIdx blk.ops v).isSome with
    | none => rw [hf] at h; simp at h
    | some blk =>
      rw [hf] at h
      dsimp only at h
      cases hidx : opDefIdx blk.ops v with
      | none => rw [hidx] at h; simp at h
      | some i => rw [hidx] at h; simp at h

theorem defSiteOf_inOp (f : Fn) (v : ValId) (db : BlockId) (di : Nat)
    (h : defSiteOf f v = some (.inOp db di)) :
    ∃ blk ∈ f.blocks, blk.bid = db ∧ ∃ op, blk.ops.get? di = some op ∧ v ∈ op.results := by
  unfold defSiteOf at h
  by_cases hp : f.params.contains v
  · rw [if_pos hp] at h
    simp at h
  · rw [if_neg hp] at h
    cases hf : f.blocks.find? fun blk => (opDefIdx blk.ops v).isSome with
    | none => rw [hf] at h; simp at h
    | some blk =>
      rw [hf] at h
      dsimp only at h
      cases hidx : opDefIdx blk.ops v with
      | none => rw [hidx] at h; simp at h
      | some i =>
        rw [hidx] at h
        simp only [Option.map_some'] at h
        have hinj := Option.some.inj h
        have hbid : blk.bid = db := by
          injection hinj with h1 h2
        have hdi : i = di := by
          injection hinj with h1 h2
        subst hbid
        subst hdi
        obtain ⟨_, op, hop, hres⟩ := opDefIdxFrom_spec v blk.ops 0 i hidx
        refine ⟨blk, List.mem_of_find?_eq_some hf, rfl, op, by simpa using hop, ?_⟩
        simpa using hres

theorem succ_block (f : Fn) (b b' : BlockId) (h : b' ∈ succOf f b) :
    ∃ blk ∈ f.blocks, blk.bid = b ∧ b' ∈ termTargets blk.term := by
  unfold succOf at h
  cases hf : findBlock f b with
  | none => rw [hf] at h; simp at h
  | some blk =>
    rw [hf] at h
    have hm := List.mem_of_find?_eq_some hf
    have hbid := List.find?_some hf
    exact ⟨blk, hm, by simpa using hbid, h⟩

theorem succ_mem_preds (f : Fn) (b b' : BlockId) (h : b' ∈ succOf f b) :
    b ∈ predsOf f b' := by
  obtain ⟨blk, hm, hbid, htg⟩ := succ_block f b b' h
  unfold predsOf
  apply List.mem_map.mpr
  refine ⟨blk, List.mem_filter.mpr ⟨hm, by simpa using htg⟩, hbid⟩

theorem succ_src_mem (f : Fn) (b b' : BlockId) (h : b' ∈ succOf f b) :
    b ∈ blockIds f := by
  obtain ⟨blk, hm, hbid, _⟩ := succ_block f b b' h
  exact hbid ▸ List.mem_map.mpr ⟨blk, hm, rfl⟩

theorem domConsistent_entry (f : Fn) (d : BlockId → List BlockId)
    (hc : domConsistent f d = true) : d f.entry = [f.entry] := by
  rw [domConsistent, Bool.and_eq_true] at hc
  simpa using hc.1

theorem domConsistent_sound (f : Fn) (d : BlockId → List BlockId)
    (hc : domConsistent f d = true) (b : BlockId) (p : List BlockId) (hp : EPath f b p) :
    b ∈ blockIds f ∨ b = f.entry → ∀ x ∈ d b, x ∈ p := by
  induction hp with
  | start =>
    intro _ x hx
    rw [domConsistent_entry f d hc] at hx
    simpa using hx
  | @step b p b' hpath hsucc ih =>
    intro hb x hx
    by_cases hb' : b' = f.entry
    · subst hb'
      rw [domConsistent_entry f d hc] at hx
      have hxe : x = f.entry := by simpa using hx
      subst hxe
      exact List.mem_append.mpr (Or.inl (epath_entry_mem f b p hpath))
    · have hbdecl : b' ∈ blockIds f := by
        rcases hb with h | h
        · exact h
        · exact absurd h hb'
      obtain ⟨blk, hblkmem, hbid⟩ := List.mem_map.mp hbdecl
      rw [domConsistent, Bool.and_eq_true] at hc
      have hall := List.all_eq_true.mp hc.2 blk hblkmem
      rw [Bool.or_eq_true] at hall
      rcases hall with he | hgood
      · exact absurd (by simpa using he : blk.bid = f.entry) (hbid ▸ hb')
      · have hx' := List.all_eq_true.mp hgood x (hbid ▸ hx)
        rw [Bool.or_eq_true] at hx'
        rcases hx' with hxb | hpreds
        · have : x = blk.bid := by simpa using hxb
          rw [this, hbid]
          simp
        · have hbpred : b ∈ predsOf f blk.bid := hbid ▸ succ_mem_preds f b b' hsucc
          have hxd : x ∈ d b := by
            have := List.all_eq_true.mp hpreds b hbpred
            simpa using this
          exact List.mem_append.mpr (Or.inl (ih (Or.inl (succ_src_mem f b b' hsucc)) x hxd))

theorem fnUses_block_mem (f : Fn) (u : BlockId × Nat × ValId) (h : u ∈ fnUses f) :
    u.1 ∈ blockIds f := by
  simp only [fnUses, List.mem_flatMap, List.mem_map] at h
  obtain ⟨blk, hblk, iv, hiv, heq⟩ := h
  rw [← heq]
  exact List.mem_map.mpr ⟨blk, hblk, rfl⟩

/-! ## The claims -/

/-- Claim C1: for every clause list and every concrete scrutinee tuple, the Decision Tree expansion selects the same clause a naive top-to-bottom, left-to-right pattern test (the reference interpreter) would select. -/
theorem decision_tree_matches_reference (cs : List Clause) (ts : List Term) (n : Nat)
    (harity : ∀ c ∈ cs, c.pats.length = n) (hts : ts.length = n) :
    evalTree (compileClauses cs n) ts = naiveSelect cs ts :=
  compile_eval_eq_naive cs ts n harity hts

/-- Witness for Claim C1 at the concrete clause list of the guard-fallthrough example. -/
theorem decision_tree_matches_reference_witness :
    (∀ c ∈ [clauseA, clauseB], c.pats.length = 1) ∧ scrutZero.length = 1 ∧
    evalTree (compileClauses [clauseA, clauseB] 1) scrutZero =
      naiveSelect [clauseA, clauseB] scrutZero :=
  ⟨by decide, rfl, decision_tree_matches_reference [clauseA, clauseB] scrutZero 1 (by decide) rfl⟩

/-- Claim C2: when a clause's guard fails at runtime, control falls through to the next candidate clause in original order rather than to the enclosing Switch's default; in particular the clause list of `({x} when x > 0, A), ({x}, B)` matched against the scrutinee tuple holding `{0}` selects body B (clause 1), not a no-match error. -/
theorem guard_failure_falls_through (c : Clause) (cs : List Clause) (ts : List Term) (n : Nat)
    (harity : ∀ c' ∈ c :: cs, c'.pats.length = n) (hts : ts.length = n)
    (hm : patMatchList c.pats ts = true) (hg : clauseGuard c ts = false) :
    evalTree (compileClauses (c :: cs) n) ts = naiveSelFrom 1 cs ts ∧
    evalTree (compileClauses [clauseA, clauseB] 1) scrutZero = some 1 := by
  refine ⟨?_, by rfl⟩
  rw [compile_eval_eq_naive (c :: cs) ts n harity hts, naiveSelect, naiveSelFrom, hm, hg]
  simp

/-- Witness for Claim C2 at the spec's concrete clauses and scrutinee. -/
theorem guard_failure_falls_through_witness :
    patMatchList clauseA.pats scrutZero = true ∧ clauseGuard clauseA scrutZero = false ∧
    (evalTree (compileClauses [clauseA, clauseB] 1) scrutZero =
        naiveSelFrom 1 [clauseB] scrutZero ∧
      evalTree (compileClauses [clauseA, clauseB] 1) scrutZero = some 1) :=
  ⟨rfl, rfl,
    guard_failure_falls_through clauseA [clauseB] scrutZero 1 (by decide) rfl rfl rfl⟩

/-- Claim C3: when no clause matches the scrutinee at runtime, the expanded tree's final default branch raises the "no matching clause" runtime error (modelled as the `none` outcome); the Verifier's static reachability check reports warnings, never errors, and warnings never change the compiled tree. -/
theorem no_match_error_and_warnings (cs : List Clause) (ts : List Term) (n : Nat)
    (fname : String) (harity : ∀ c ∈ cs, c.pats.length = n) (hts : ts.length = n)
    (hnone : naiveSelect cs ts = none) :
    evalTree (compileClauses cs n) ts = none ∧
    (∀ d ∈ reachWarns fname cs, d.severity = Severity.warning) ∧
    (compileWithDiags fname cs n).tree = compileClauses cs n :=
  ⟨by rw [compile_eval_eq_naive cs ts n harity hts]; exact hnone,
   reachWarnsFrom_warning fname 0 [] cs, rfl⟩

/-- Witness for Claim C3 at a one-clause list whose pattern rejects the scrutinee. -/
theorem no_match_error_and_warnings_witness :
    (∀ c ∈ [(⟨[Pat.lit 0], none⟩ : Clause)], c.pats.length = 1) ∧
    naiveSelect [⟨[Pat.lit 0], none⟩] [Term.int 5] = none ∧
    (evalTree (compileClauses [⟨[Pat.lit 0], none⟩] 1) [Term.int 5] = none ∧
      (∀ d ∈ reachWarns ("f") [⟨[Pat.lit 0], none⟩], d.severity = Severity.warning) ∧
      (compileWithDiags ("f") [⟨[Pat.lit 0], none⟩] 1).tree =
        compileClauses [⟨[Pat.lit 0], none⟩] 1) :=
  ⟨by decide, rfl,
    no_match_error_and_warnings [⟨[Pat.lit 0], none⟩] [Term.int 5] 1 ("f") (by decide) rfl rfl⟩

/-- Claim C4: encoding a small integer as a Term allocates no heap storage and decoding returns the original value; constructing a boxed tuple and destructuring element `i` returns exactly the Term placed at position `i` at construction. -/
theorem small_int_and_tuple_round_trip (n : Int) (h : Heap) (es : List Nat) (i : Nat)
    (hlo : smallIntMin ≤ n) (hhi : n ≤ smallIntMax) (hi : i < es.length) :
    decodeSmallInt (encodeSmallInt n) = n ∧
    (encodeSmallIntOnHeap h n).1 = h ∧
    tupleElem (allocTuple h es).1 (allocTuple h es).2 i = es.get? i :=
  ⟨encode_decode_int n hlo hhi, rfl, alloc_tuple_elem h es i hi⟩

/-- Witness for Claim C4 at the integer 5 and a two-element tuple. -/
theorem small_int_and_tuple_round_trip_witness :
    smallIntMin ≤ (5 : Int) ∧ (5 : Int) ≤ smallIntMax ∧ (1 : Nat) < [10, 20].length ∧
    (decodeSmallInt (encodeSmallInt 5) = 5 ∧ (encodeSmallIntOnHeap [] 5).1 = [] ∧
      tupleElem (allocTuple [] [10, 20]).1 (allocTuple [] [10, 20]).2 1 = [10, 20].get? 1) :=
  ⟨by decide, by decide, by decide,
    small_int_and_tuple_round_trip 5 [] [10, 20] 1 (by decide) (by decide) (by decide)⟩

/-- Claim C5: for every Function the Verifier accepts, every Basic Block is reachable from the entry block, every IR Value has exactly one defining Operation, and every consuming operation sits at a point dominated by that definition (same block after the defining index, or in a block every entry-walk to which passes the defining block). -/
theorem verifier_invariants (f : Fn) (hv : verifyFn f = true) :
    (∀ blk ∈ f.blocks, ReachableB f blk.bid) ∧
    (∀ v ∈ allDefs f, (allDefs f).count v = 1) ∧
    (∀ u ∈ fnUses f, (allDefs f).count u.2.2 = 1) ∧
    (∀ u ∈ fnUses f,
      u.2.2 ∈ f.params ∨
      ∃ blk ∈ f.blocks, ∃ op, ∃ di, blk.ops.get? di = some op ∧ u.2.2 ∈ op.results ∧
        ((blk.bid = u.1 ∧ di < u.2.1) ∨ (blk.bid ≠ u.1 ∧ Dominates f blk.bid u.1))) := by
  rw [verifyFn] at hv
  simp only [Bool.and_eq_true] at hv
  obtain ⟨⟨⟨⟨⟨⟨h1, h2⟩, h3⟩, h4⟩, h5⟩, h6⟩, h7⟩ := hv
  have hnodup : (allDefs f).Nodup := of_decide_eq_true h4
  refine ⟨?_, ?_, ?_, ?_⟩
  · intro blk hblk
    have := List.all_eq_true.mp h3 blk hblk
    have hmem : blk.bid ∈ reachSet f := by simpa using this
    exact reachSetAux_sound f f.blocks.length blk.bid hmem
  · intro v hvd
    exact List.count_eq_one_of_mem hnodup hvd
  · intro u hu
    have := List.all_eq_true.mp h5 u hu
    have hmem : u.2.2 ∈ allDefs f := by simpa using this
    exact List.count_eq_one_of_mem hnodup hmem
  · intro u hu
    have hdom := List.all_eq_true.mp h7 u hu
    rw [useDominated] at hdom
    cases hsite : defSiteOf f u.2.2 with
    | none => rw [hsite] at hdom; simp at hdom
    | some site =>
      rw [hsite] at hdom
      cases site with
      | param => exact Or.inl (defSiteOf_param f u.2.2 hsite)
      | inOp db di =>
        dsimp only at hdom
        right
        obtain ⟨blk, hblkmem, hbid, op, hop, hres⟩ := defSiteOf_inOp f u.2.2 db di hsite
        refine ⟨blk, hblkmem, op, di, hop, hres, ?_⟩
        by_cases hsame : db = u.1
        · left
          rw [if_pos hsame] at hdom
          exact ⟨hbid.trans hsame, by simpa using hdom⟩
        · right
          rw [if_neg hsame] at hdom
          refine ⟨hbid ▸ hsame, ?_⟩
          intro p hp
          have hxd : db ∈ domFun f u.1 := by simpa using hdom
          rw [hbid]
          exact domConsistent_sound f (domFun f) h6 u.1 p hp
            (Or.inl (fnUses_block_mem f u hu)) db hxd

/-- Witness for Claim C5 at a one-block function with one operation. -/
theorem verifier_invariants_witness :
    verifyFn ⟨"w", [1], 0, [⟨0, [⟨[2], [1]⟩], .ret 2⟩]⟩ = true ∧
    (∀ blk ∈ ((⟨"w", [1], 0, [⟨0, [⟨[2], [1]⟩], .ret 2⟩]⟩ : Fn)).blocks,
      ReachableB ⟨"w", [1], 0, [⟨0, [⟨[2], [1]⟩], .ret 2⟩]⟩ blk.bid) :=
  ⟨by decide, (verifier_invariants ⟨"w", [1], 0, [⟨0, [⟨[2], [1]⟩], .ret 2⟩]⟩ (by decide)).1⟩

/-- Claim C6: when any Verifier check fails on a Module, lowering of that whole Module aborts and nothing is emitted to the backend. -/
theorem verification_failure_aborts_module (m : Module) (hv : verifyModule m = false) :
    lowerModule m = none := by
  unfold lowerModule
  apply lowerFold_fail
  simpa [verifyModule, List.all_eq_false] using hv

/-- Witness for Claim C6 at a module whose function has an unreachable block. -/
theorem verification_failure_aborts_module_witness :
    verifyModule ⟨"m", [⟨"f", [], 0, [⟨0, [], .unreach⟩, ⟨1, [], .unreach⟩]⟩], []⟩ = false ∧
    lowerModule ⟨"m", [⟨"f", [], 0, [⟨0, [], .unreach⟩, ⟨1, [], .unreach⟩]⟩], []⟩ = none :=
  ⟨by decide, verification_failure_aborts_module _ (by decide)⟩

/-- Claim C7: a send never blocks the sender (the op is not marked may-suspend) and never fails observably; sending to a terminated or unreachable process-id silently drops the message and raises nothing. -/
theorem send_never_blocks_or_raises (s : RtSys) (t : Nat) (msg : Term)
    (hdead : ∀ p ∈ s.procs, p.pid = t → p.alive = false) :
    (∀ (s' : RtSys) (t' : Nat) (m' : Term), ∃ r, sendMsg s' t' m' = .ok r) ∧
    sendMsg s t msg = .ok s ∧
    maySuspend .sendOp = false := by
  refine ⟨fun s' t' m' => ⟨_, rfl⟩, ?_, rfl⟩
  simp only [sendMsg, deliver_dead t msg s.procs hdead]

/-- Witness for Claim C7 at a system holding one terminated process. -/
theorem send_never_blocks_or_raises_witness :
    (∀ p ∈ (RtSys.mk [⟨7, false, []⟩]).procs, p.pid = 7 → p.alive = false) ∧
    ((∀ (s' : RtSys) (t' : Nat) (m' : Term), ∃ r, sendMsg s' t' m' = .ok r) ∧
      sendMsg ⟨[⟨7, false, []⟩]⟩ 7 Term.nil = .ok ⟨[⟨7, false, []⟩]⟩ ∧
      maySuspend .sendOp = false) :=
  ⟨by decide, send_never_blocks_or_raises ⟨[⟨7, false, []⟩]⟩ 7 Term.nil (by decide)⟩

/-- Claim C8: a compiled receive scans the mailbox in arrival order and removes only the first structurally matching message, leaving all non-matching messages in original order; in particular with mailbox `[M1, M2]` and a pattern matching only M2, receive removes M2 and leaves M1 in place. -/
theorem receive_scans_in_arrival_order (tree : DTree) (mb : List Term) (t : Term)
    (rest : List Term) (h : scanMailbox tree mb = some (t, rest)) :
    (∃ i, mb.get? i = some t ∧ (evalTree tree [t]).isSome ∧
      (∀ k, k < i → ∀ u, mb.get? k = some u → evalTree tree [u] = none) ∧
      rest = mb.take i ++ mb.drop (i + 1)) ∧
    (∀ m1 m2 : Term, evalTree tree [m1] = none → (evalTree tree [m2]).isSome →
      scanMailbox tree [m1, m2] = some (m2, [m1])) := by
  refine ⟨scan_first_match tree mb t rest h, fun m1 m2 h1 h2 => ?_⟩
  obtain ⟨v, hv⟩ := Option.isSome_iff_exists.mp h2
  simp [scanMailbox, h1, hv]

/-- Witness for Claim C8 at a two-message mailbox and a compiled one-clause Decision Tree matching only the second message. -/
theorem receive_scans_in_arrival_order_witness :
    scanMailbox (compileClauses [⟨[Pat.tup [Pat.lit 1]], none⟩] 1)
        [Term.atom ("a"), Term.tuple [Term.int 1]] =
      some (Term.tuple [Term.int 1], [Term.atom ("a")]) ∧
    (∃ i, [Term.atom ("a"), Term.tuple [Term.int 1]].get? i = some (Term.tuple [Term.int 1]) ∧
      (evalTree (compileClauses [⟨[Pat.tup [Pat.lit 1]], none⟩] 1) [Term.tuple [Term.int 1]]).isSome ∧
      (∀ k, k < i → ∀ u, [Term.atom ("a"), Term.tuple [Term.int 1]].get? k = some u →
        evalTree (compileClauses [⟨[Pat.tup [Pat.lit 1]], none⟩] 1) [u] = none) ∧
      [Term.atom ("a")] = [Term.atom ("a"), Term.tuple [Term.int 1]].take i ++
        [Term.atom ("a"), Term.tuple [Term.int 1]].drop (i + 1)) :=
  ⟨rfl, (receive_scans_in_arrival_order _ _ _ _ (by rfl)).1⟩

/-- Claim C9: the Backend Lowering Emitter is deterministic: two emission runs over the same verified IR, started from different ambient emission states, produce identical backend instruction sequences, and operand binding is a pure function of each IR Value's SSA identity. -/
theorem emitter_deterministic (m : Module) (s1 s2 : Nat) (hv : verifyModule m = true) :
    (emitFnsFrom s1 m.fns).2 = (emitFnsFrom s2 m.fns).2 ∧
    emitModule m = (emitFnsFrom s1 m.fns).2 ∧
    ∀ op : Operation, emitOp op = ⟨"op", op.results.map slotOf, op.operands.map slotOf⟩ :=
  ⟨emitFns_state_free m.fns s1 s2, emitFns_state_free m.fns 0 s1, fun _ => rfl⟩

/-- Witness for Claim C9 at a verified one-block module and two distinct emission states. -/
theorem emitter_deterministic_witness :
    verifyModule ⟨"m", [⟨"f", [], 0, [⟨0, [], .unreach⟩]⟩], []⟩ = true ∧
    (emitFnsFrom 3 [⟨"f", [], 0, [⟨0, [], .unreach⟩]⟩]).2 =
      (emitFnsFrom 17 [⟨"f", [], 0, [⟨0, [], .unreach⟩]⟩]).2 :=
  ⟨by decide, (emitter_deterministic ⟨"m", [⟨"f", [], 0, [⟨0, [], .unreach⟩]⟩], []⟩ 3 17 (by decide)).1⟩

/-- Claim C10: the available source snapshot is exactly one header file of 12 lines that declares the op-set enumeration surface by including the generated `lumen/EIR/IR/EIREnums.h.inc` and whose every line is blank or a preprocessor directive, defining no other symbols itself. -/
theorem snapshot_single_twelve_line_header :
    sourceSnapshot = [(eirEnumsHeaderPath, eirEnumsHeaderLines)] ∧
    sourceSnapshot.length = 1 ∧
    eirEnumsHeaderLines.length = 12 ∧
    opSetEnumInclude ∈ eirEnumsHeaderLines ∧
    (eirEnumsHeaderLines.all fun l => lineIsBlank l || lineIsDirective l) = true :=
  ⟨rfl, rfl, rfl, by decide, by decide⟩

end Lumen
